import Mathlib

/-!
Verification of the shortest-path engine of the prime-dsa repository
(`dijkstra.py`) and of the reference binary heap (`heap.py`).

The Python source is shallowly embedded: Python `list` reads and writes go
through `pyGet` / `pySet`, which reproduce Python's indexing semantics
(negative indices count from the back, anything outside `[-len, len)` raises
`IndexError`); fallible code runs in `Except PyErr`; the two `while` loops of
`dijkstra` receive explicit fuel, and exhaustion of that fuel (`PyErr.fuelOut`)
is proved unreachable on the inputs the theorems consider.  Python's
`math.inf` distances are modelled by `⊤ : WithTop Int`, matching the facts
that `int + inf = inf` and `x < inf` iff `x` is a finite number.
-/

set_option maxHeartbeats 1000000

/-- Errors a run of the embedded Python code can raise.  `indexError` and
`typeError` mirror Python's `IndexError` and `TypeError`; `fuelOut` marks
exhaustion of the explicit fuel given to an embedded `while` loop. -/
inductive PyErr where
  | indexError
  | typeError
  | fuelOut
deriving DecidableEq

/-- Embeds `GraphEdge` of `dijkstra.py`: a directed edge with target index
`toV` (the source's field `to`, renamed because `to` is a reserved token
here) and integer `weight`.  Both fields are Python `int`s, hence `Int`. -/
structure GraphEdge where
  toV : Int
  weight : Int
deriving DecidableEq

/-- Embeds the `WeightedAdjacencyList` alias of `dijkstra.py`. -/
abbrev WeightedAdjacencyList := List (List GraphEdge)

/-- Distances held in the `dists` table: `math.inf` (`⊤`) or an integer. -/
abbrev DistVal := WithTop Int

/-- Python list index resolution: a nonnegative index must be `< len`, a
negative index counts from the back and must be `≥ -len`; everything else is
an `IndexError` (`none`). -/
def pyIdx (len : Nat) (i : Int) : Option Nat :=
  if 0 ≤ i then
    if i < (len : Int) then some i.toNat else none
  else
    if -(len : Int) ≤ i then some (i + (len : Int)).toNat else none

/-- Python `l[i]` (read). -/
def pyGet {α : Type} (l : List α) (i : Int) : Except PyErr α :=
  match (pyIdx l.length i).bind l.get? with
  | some a => .ok a
  | none => .error .indexError

/-- Python `l[i] = a` (write). -/
def pySet {α : Type} (l : List α) (i : Int) (a : α) : Except PyErr (List α) :=
  match pyIdx l.length i with
  | some j => .ok (l.set j a)
  | none => .error .indexError

/-- Embeds the `for index, visited in enumerate(seen)` loop of
`has_unvisited`; `index` carries the running enumeration index.  Note that
Python's `and` short-circuits, so `dists[index]` is only read when
`not visited`. -/
def hasUnvisitedAux (dists : List DistVal) : Nat → List Bool → Except PyErr Bool
  | _, [] => .ok false
  | index, visited :: rest =>
    if visited then hasUnvisitedAux dists (index + 1) rest
    else do
      let d ← pyGet dists (index : Int)
      if d < ⊤ then .ok true else hasUnvisitedAux dists (index + 1) rest

/-- Embeds `has_unvisited` of `dijkstra.py`. -/
def has_unvisited (seen : List Bool) (dists : List DistVal) : Except PyErr Bool :=
  hasUnvisitedAux dists 0 seen

/-- Embeds the `for index, dist in enumerate(dists)` loop of
`get_lowest_unvisited`, carrying the running minimum `lowest` and its index
`idx` (initially `math.inf` and `-1`). -/
def getLowestAux (seen : List Bool) : Nat → List DistVal → DistVal → Int → Except PyErr Int
  | _, [], _, idx => .ok idx
  | index, dist :: rest, lowest, idx => do
    let sv ← pyGet seen (index : Int)
    if sv then getLowestAux seen (index + 1) rest lowest idx
    else if dist < lowest then getLowestAux seen (index + 1) rest dist (index : Int)
    else getLowestAux seen (index + 1) rest lowest idx

/-- Embeds `get_lowest_unvisited` of `dijkstra.py`. -/
def get_lowest_unvisited (seen : List Bool) (dists : List DistVal) : Except PyErr Int :=
  getLowestAux seen 0 dists ⊤ (-1)

/-- The mutable state of one `dijkstra` query: the `seen`, `prev` and `dists`
tables. -/
structure DijkstraState where
  seen : List Bool
  prev : List Int
  dists : List DistVal
deriving DecidableEq

/-- Embeds the `for edge in adjs` body of `dijkstra`'s main loop: skip edges
into seen vertices, otherwise relax `dists[edge.toV]` (and record `prev`) when
`dists[curr] + edge.weight` improves it. -/
def relaxLoop (curr : Int) : List GraphEdge → DijkstraState → Except PyErr DijkstraState
  | [], st => .ok st
  | edge :: rest, st => do
    let sTo ← pyGet st.seen edge.toV
    if sTo then relaxLoop curr rest st
    else do
      let dCurr ← pyGet st.dists curr
      let dist := dCurr + (edge.weight : DistVal)
      let dTo ← pyGet st.dists edge.toV
      if dist < dTo then do
        let dists' ← pySet st.dists edge.toV dist
        let prev' ← pySet st.prev edge.toV curr
        relaxLoop curr rest { st with dists := dists', prev := prev' }
      else relaxLoop curr rest st

/-- One iteration of `dijkstra`'s `while has_unvisited(...)` loop: select the
lowest unvisited vertex, mark it seen, and relax its outgoing edges. -/
def dijkstraStep (graph : WeightedAdjacencyList) (st : DijkstraState) :
    Except PyErr DijkstraState := do
  let curr ← get_lowest_unvisited st.seen st.dists
  let seen' ← pySet st.seen curr true
  let adjs ← pyGet graph curr
  relaxLoop curr adjs { st with seen := seen' }

/-- Embeds the `while has_unvisited(seen, dists)` loop of `dijkstra` with
explicit fuel; `dijkstra` supplies fuel `len(graph)`, which is proved
sufficient (each iteration marks one more vertex seen). -/
def loopGo (graph : WeightedAdjacencyList) : Nat → DijkstraState → Except PyErr DijkstraState
  | 0, st => do
    let b ← has_unvisited st.seen st.dists
    if b then .error .fuelOut else .ok st
  | fuel + 1, st => do
    let b ← has_unvisited st.seen st.dists
    if b then do
      let st' ← dijkstraStep graph st
      loopGo graph fuel st'
    else .ok st

/-- The table-building part of `dijkstra` (lines 38-54 of `dijkstra.py`):
allocate `seen`/`prev`/`dists`, set `dists[source] = 0`, and run the
relaxation loop to completion. -/
def dijkstraLoopResult (graph : WeightedAdjacencyList) (source : Int) :
    Except PyErr DijkstraState := do
  let n := graph.length
  let dists ← pySet (List.replicate n (⊤ : DistVal)) source 0
  loopGo graph n ⟨List.replicate n false, List.replicate n (-1), dists⟩

/-- Embeds the `while prev[curr] != -1` reconstruction walk of `dijkstra`,
with explicit fuel; `dijkstra` supplies fuel `len(graph) + 1`, which is
proved sufficient (the predecessor chain is acyclic). -/
def walkGo (prev : List Int) : Nat → Int → List Int → Except PyErr (List Int)
  | 0, curr, path => do
    let p ← pyGet prev curr
    if p ≠ -1 then .error .fuelOut else .ok path
  | fuel + 1, curr, path => do
    let p ← pyGet prev curr
    if p ≠ -1 then walkGo prev fuel p (path ++ [curr])
    else .ok path

/-- Embeds `dijkstra` of `dijkstra.py` (the spec's single entry point
`shortest_path`): build the distance/predecessor tables, then walk `prev`
back from `sink`, and if anything was collected append `source` and
reverse. -/
def dijkstra (graph : WeightedAdjacencyList) (source sink : Int) :
    Except PyErr (List Int) := do
  let st ← dijkstraLoopResult graph source
  let path ← walkGo st.prev (graph.length + 1) sink []
  if path.length ≠ 0 then .ok ((path ++ [source]).reverse)
  else .ok path

/-- The reference 8-vertex unit-weight graph built in `main()` of
`dijkstra.py`. -/
def mainGraph : WeightedAdjacencyList :=
  [ [⟨1, 1⟩],
    [⟨3, 1⟩, ⟨4, 1⟩],
    [⟨4, 1⟩, ⟨7, 1⟩],
    [⟨1, 1⟩, ⟨5, 1⟩],
    [⟨1, 1⟩, ⟨2, 1⟩],
    [⟨3, 1⟩, ⟨6, 1⟩, ⟨7, 1⟩],
    [⟨5, 1⟩, ⟨7, 1⟩],
    [⟨2, 1⟩, ⟨6, 1⟩, ⟨5, 1⟩] ]

example : dijkstra mainGraph 7 0 = .ok [] := by rfl

example : dijkstra mainGraph 7 4 = .ok [7, 2, 4] := by rfl

example : dijkstra mainGraph 0 0 = .ok [] := by rfl

example : dijkstra mainGraph (-1) 0 = .ok [] := by rfl

example : dijkstra mainGraph 0 8 = .error .indexError := by rfl

example : dijkstra [[⟨1, -1⟩], []] 0 1 = .ok [0, 1] := by rfl

/-! Basic facts about the Python list primitives, stated through `List.getD`
with the canonical defaults used by the invariants below. -/

theorem getD_set_self {α : Type} (l : List α) (j : Nat) (a d : α) (h : j < l.length) :
    (l.set j a).getD j d = a := by
  simp [List.getD_eq_getD_get?, List.get?_eq_getElem?, List.getElem?_set_self h]

theorem getD_set_ne {α : Type} (l : List α) {j k : Nat} (a d : α) (h : j ≠ k) :
    (l.set j a).getD k d = l.getD k d := by
  simp [List.getD_eq_getD_get?, List.get?_eq_getElem?, List.getElem?_set_ne h]

theorem getD_replicate_lt {α : Type} (n j : Nat) (x d : α) (h : j < n) :
    (List.replicate n x).getD j d = x := by
  rw [List.getD_eq_getElem _ _ (by simpa using h)]
  simp

theorem pyIdx_coe {len j : Nat} (h : j < len) : pyIdx len (j : Int) = some j := by
  simp [pyIdx, h]

theorem pyGet_coe {α : Type} (l : List α) {j : Nat} (d : α) (h : j < l.length) :
    pyGet l (j : Int) = .ok (l.getD j d) := by
  rw [pyGet, pyIdx_coe h]
  simp [List.getD_eq_getD_get?, List.get?_eq_getElem?, List.getElem?_eq_getElem h]

theorem pySet_coe {α : Type} (l : List α) {j : Nat} (a : α) (h : j < l.length) :
    pySet l (j : Int) a = .ok (l.set j a) := by
  rw [pySet, pyIdx_coe h]

theorem count_false_pos {seen : List Bool} {j : Nat} (h : j < seen.length)
    (hf : seen.getD j false = false) : 0 < seen.count false := by
  rw [List.getD_eq_getElem _ _ h] at hf
  exact List.count_pos_iff.mpr (hf ▸ seen.getElem_mem h)

theorem count_false_set_true {seen : List Bool} {j : Nat} (h : j < seen.length)
    (hf : seen.getD j false = false) :
    (seen.set j true).count false < seen.count false := by
  induction seen generalizing j with
  | nil => simp at h
  | cons b t ih =>
    cases j with
    | zero =>
      have hb : b = false := by simpa using hf
      subst hb
      simp [List.count_cons]
    | succ j =>
      have hjt : j < t.length := by simp at h; omega
      have hft : t.getD j false = false := by simpa using hf
      have := ih hjt hft
      have hset : (b :: t).set (j + 1) true = b :: t.set j true := rfl
      rw [hset]
      simp only [List.count_cons]
      omega

theorem ok_bind {α β : Type} (a : α) (f : α → Except PyErr β) :
    (Except.ok a : Except PyErr α) >>= f = f a := rfl

theorem error_bind {α β : Type} (e : PyErr) (f : α → Except PyErr β) :
    (Except.error e : Except PyErr α) >>= f = .error e := rfl

/-! Characterisation of `has_unvisited`: on lists with `len(seen) ≤ len(dists)`
it never raises, and it returns `True` exactly when some index is unvisited
with a finite distance. -/

/-- The predicate that `has_unvisited` decides. -/
def HasUnvisitedP (seen : List Bool) (dists : List DistVal) : Prop :=
  ∃ j, j < seen.length ∧ seen.getD j false = false ∧ dists.getD j ⊤ < ⊤

instance (seen : List Bool) (dists : List DistVal) : Decidable (HasUnvisitedP seen dists) := by
  unfold HasUnvisitedP
  infer_instance

theorem hasUnvisitedAux_ok (s : List Bool) (dists : List DistVal) :
    ∀ i : Nat, i + s.length ≤ dists.length →
      hasUnvisitedAux dists i s =
        .ok (decide (∃ j, j < s.length ∧ s.getD j false = false ∧ dists.getD (i + j) ⊤ < ⊤)) := by
  induction s with
  | nil => intro i _; simp [hasUnvisitedAux]
  | cons v rest ih =>
    intro i hlen
    have hi : i < dists.length := by simp at hlen; omega
    cases v with
    | true =>
      rw [hasUnvisitedAux, if_pos rfl, ih (i + 1) (by simp at hlen ⊢; omega)]
      congr 1
      rw [decide_eq_decide]
      constructor
      · rintro ⟨j, hj, hs, hd⟩
        exact ⟨j + 1, by simpa using hj, by simpa using hs,
          by rw [show i + (j + 1) = i + 1 + j by omega]; exact hd⟩
      · rintro ⟨j, hj, hs, hd⟩
        cases j with
        | zero => simp at hs
        | succ j =>
          exact ⟨j, by simpa using hj, by simpa using hs,
            by rw [show i + 1 + j = i + (j + 1) by omega]; exact hd⟩
    | false =>
      rw [hasUnvisitedAux, if_neg (by simp)]
      rw [show ((pyGet dists (i : Int)) : Except PyErr DistVal) = .ok (dists.getD i ⊤) from
        pyGet_coe dists ⊤ hi]
      simp only [ok_bind]
      by_cases hd : dists.getD i ⊤ < ⊤
      · have hP : ∃ j, j < (false :: rest).length ∧ (false :: rest).getD j false = false ∧
            dists.getD (i + j) ⊤ < ⊤ :=
          ⟨0, by simp, by simp, by simpa using hd⟩
        rw [if_pos hd, decide_eq_true hP]
      · rw [if_neg hd]
        rw [ih (i + 1) (by simp at hlen ⊢; omega)]
        congr 1
        rw [decide_eq_decide]
        constructor
        · rintro ⟨j, hj, hs, hdj⟩
          exact ⟨j + 1, by simpa using hj, by simpa using hs,
            by rw [show i + (j + 1) = i + 1 + j by omega]; exact hdj⟩
        · rintro ⟨j, hj, hs, hdj⟩
          cases j with
          | zero => exact absurd (by simpa using hdj) hd
          | succ j =>
            exact ⟨j, by simpa using hj, by simpa using hs,
              by rw [show i + 1 + j = i + (j + 1) by omega]; exact hdj⟩

theorem has_unvisited_eq (seen : List Bool) (dists : List DistVal)
    (hlen : seen.length ≤ dists.length) :
    has_unvisited seen dists = .ok (decide (HasUnvisitedP seen dists)) := by
  rw [has_unvisited, hasUnvisitedAux_ok seen dists 0 (by omega)]
  congr 1
  rw [decide_eq_decide]
  unfold HasUnvisitedP
  constructor
  · rintro ⟨j, hj, hs, hd⟩; exact ⟨j, hj, hs, by simpa using hd⟩
  · rintro ⟨j, hj, hs, hd⟩; exact ⟨j, hj, hs, by simpa using hd⟩

/-! Characterisation of `get_lowest_unvisited`: the linear scan returns `-1`
when every unvisited distance is infinite, and otherwise the first (lowest)
index attaining the minimum distance among unvisited vertices. -/

theorem drop_cons_facts {α : Type} (d : α) :
    ∀ (l : List α) (i : Nat) (a : α) (t : List α), l.drop i = a :: t →
      i < l.length ∧ l.getD i d = a ∧ l.drop (i + 1) = t := by
  intro l
  induction l with
  | nil => intro i a t h; simp at h
  | cons x l' ih =>
    intro i a t h
    cases i with
    | zero =>
      simp only [List.drop_zero] at h
      cases h
      exact ⟨by simp, by simp, by simp⟩
    | succ i =>
      have h' : l'.drop i = a :: t := by simpa using h
      obtain ⟨h1, h2, h3⟩ := ih i a t h'
      exact ⟨by simp; omega, by simpa using h2, by simpa using h3⟩

/-- What `get_lowest_unvisited` returns: either `-1` with every unvisited
distance infinite, or the least index among unvisited vertices attaining the
minimum (finite) unvisited distance. -/
def GLFinal (seen : List Bool) (dists : List DistVal) (r : Int) : Prop :=
  (r = -1 ∧ ∀ j, j < dists.length → seen.getD j false = false → ¬ dists.getD j ⊤ < ⊤) ∨
  (∃ i0 : Nat, r = (i0 : Int) ∧ i0 < dists.length ∧ seen.getD i0 false = false ∧
    dists.getD i0 ⊤ < ⊤ ∧
    (∀ j, j < dists.length → seen.getD j false = false → dists.getD i0 ⊤ ≤ dists.getD j ⊤) ∧
    (∀ j, j < i0 → seen.getD j false = false → dists.getD i0 ⊤ < dists.getD j ⊤))

/-- Invariant of the running `(lowest, idx)` accumulator of the scan after the
first `i` indices have been processed. -/
def GLAcc (seen : List Bool) (dists : List DistVal) (i : Nat) (lowest : DistVal)
    (idx : Int) : Prop :=
  (idx = -1 ∧ lowest = ⊤ ∧ ∀ j, j < i → seen.getD j false = false → ¬ dists.getD j ⊤ < ⊤) ∨
  (∃ i0 : Nat, idx = (i0 : Int) ∧ i0 < i ∧ seen.getD i0 false = false ∧
    dists.getD i0 ⊤ = lowest ∧ lowest < ⊤ ∧
    (∀ j, j < i → seen.getD j false = false → lowest ≤ dists.getD j ⊤) ∧
    (∀ j, j < i0 → seen.getD j false = false → lowest < dists.getD j ⊤))

theorem getLowestAux_spec (seen : List Bool) (dists : List DistVal)
    (hlen : dists.length ≤ seen.length) :
    ∀ (rest : List DistVal) (i : Nat) (lowest : DistVal) (idx : Int),
      dists.drop i = rest → GLAcc seen dists i lowest idx →
      ∃ r : Int, getLowestAux seen i rest lowest idx = .ok r ∧ GLFinal seen dists r := by
  intro rest
  induction rest with
  | nil =>
    intro i lowest idx hdrop hacc
    refine ⟨idx, rfl, ?_⟩
    have hil : dists.length ≤ i := by
      by_contra hlt
      push_neg at hlt
      rw [List.drop_eq_nil_iff] at hdrop
      omega
    rcases hacc with ⟨h1, _, h3⟩ | ⟨i0, hidx, _, hs0, hd0, hfin, hmin, hfirst⟩
    · exact Or.inl ⟨h1, fun j hj hsj => h3 j (by omega) hsj⟩
    · have hi0 : i0 < dists.length := by
        by_contra hge
        push_neg at hge
        rw [List.getD_eq_default _ _ hge] at hd0
        exact absurd (hd0 ▸ hfin) (lt_irrefl _)
      exact Or.inr ⟨i0, hidx, hi0, hs0, hd0 ▸ hfin,
        fun j hj hsj => hd0 ▸ hmin j (by omega) hsj,
        fun j hj hsj => hd0 ▸ hfirst j hj hsj⟩
  | cons dcur rest' ih =>
    intro i lowest idx hdrop hacc
    obtain ⟨hi, hgd, hdrop'⟩ := drop_cons_facts (⊤ : DistVal) dists i dcur rest' hdrop
    rw [getLowestAux]
    rw [show ((pyGet seen (i : Int)) : Except PyErr Bool) = .ok (seen.getD i false) from
      pyGet_coe seen false (lt_of_lt_of_le hi hlen)]
    simp only [ok_bind]
    cases hs : seen.getD i false with
    | true =>
      rw [if_pos rfl]
      refine ih (i + 1) lowest idx hdrop' ?_
      rcases hacc with ⟨h1, h2, h3⟩ | ⟨i0, hidx, hi0, hs0, hd0, hfin, hmin, hfirst⟩
      · refine Or.inl ⟨h1, h2, fun j hj hsj => ?_⟩
        rcases Nat.lt_succ_iff_lt_or_eq.mp hj with hj' | rfl
        · exact h3 j hj' hsj
        · rw [hs] at hsj; cases hsj
      · refine Or.inr ⟨i0, hidx, by omega, hs0, hd0, hfin, fun j hj hsj => ?_, hfirst⟩
        rcases Nat.lt_succ_iff_lt_or_eq.mp hj with hj' | rfl
        · exact hmin j hj' hsj
        · rw [hs] at hsj; cases hsj
    | false =>
      rw [if_neg (by simp)]
      by_cases hlt : dcur < lowest
      · rw [if_pos hlt]
        refine ih (i + 1) dcur (i : Int) hdrop' (Or.inr ⟨i, rfl, by omega, hs, hgd, lt_of_lt_of_le hlt le_top, ?_, ?_⟩)
        · intro j hj hsj
          rcases Nat.lt_succ_iff_lt_or_eq.mp hj with hj' | rfl
          · rcases hacc with ⟨_, h2, h3⟩ | ⟨i0, _, _, _, _, _, hmin, _⟩
            · have : dists.getD j ⊤ = ⊤ := top_le_iff.mp (not_lt.mp (h3 j hj' hsj))
              rw [this]; exact le_top
            · exact le_of_lt (lt_of_lt_of_le hlt (hmin j hj' hsj))
          · rw [hgd]
        · intro j hj hsj
          rcases hacc with ⟨_, h2, h3⟩ | ⟨i0, _, _, _, _, _, hmin, _⟩
          · have : dists.getD j ⊤ = ⊤ := top_le_iff.mp (not_lt.mp (h3 j hj hsj))
            rw [this]; exact lt_of_lt_of_le hlt le_top
          · exact lt_of_lt_of_le hlt (hmin j hj hsj)
      · rw [if_neg hlt]
        refine ih (i + 1) lowest idx hdrop' ?_
        have hge : lowest ≤ dcur := not_lt.mp hlt
        rcases hacc with ⟨h1, h2, h3⟩ | ⟨i0, hidx, hi0, hs0, hd0, hfin, hmin, hfirst⟩
        · refine Or.inl ⟨h1, h2, fun j hj hsj => ?_⟩
          rcases Nat.lt_succ_iff_lt_or_eq.mp hj with hj' | rfl
          · exact h3 j hj' hsj
          · rw [hgd]
            subst h2
            exact fun hcon => absurd (lt_of_lt_of_le hcon hge) (lt_irrefl _)
        · refine Or.inr ⟨i0, hidx, by omega, hs0, hd0, hfin, fun j hj hsj => ?_, hfirst⟩
          rcases Nat.lt_succ_iff_lt_or_eq.mp hj with hj' | rfl
          · exact hmin j hj' hsj
          · rw [hgd]; exact hge

theorem get_lowest_spec (seen : List Bool) (dists : List DistVal)
    (hlen : dists.length ≤ seen.length) :
    ∃ r : Int, get_lowest_unvisited seen dists = .ok r ∧ GLFinal seen dists r :=
  getLowestAux_spec seen dists hlen dists 0 ⊤ (-1) rfl
    (Or.inl ⟨rfl, rfl, fun j hj => by omega⟩)

theorem get_lowest_pos (seen : List Bool) (dists : List DistVal)
    (hlen : dists.length ≤ seen.length)
    (hex : ∃ j, j < dists.length ∧ seen.getD j false = false ∧ dists.getD j ⊤ < ⊤) :
    ∃ i0 : Nat, get_lowest_unvisited seen dists = .ok (i0 : Int) ∧ i0 < dists.length ∧
      seen.getD i0 false = false ∧ dists.getD i0 ⊤ < ⊤ ∧
      (∀ j, j < dists.length → seen.getD j false = false →
        dists.getD i0 ⊤ ≤ dists.getD j ⊤) ∧
      (∀ j, j < i0 → seen.getD j false = false → dists.getD i0 ⊤ < dists.getD j ⊤) := by
  obtain ⟨r, hr, hfin⟩ := get_lowest_spec seen dists hlen
  rcases hfin with ⟨_, hall⟩ | ⟨i0, rfl, h1, h2, h3, h4, h5⟩
  · obtain ⟨j, hj, hsj, hdj⟩ := hex
    exact absurd hdj (hall j hj hsj)
  · exact ⟨i0, hr, h1, h2, h3, h4, h5⟩

/-! Walks in the adjacency list, their weights, and the two well-formedness
hypotheses (in-range edge targets, non-negative weights) used by the
specification-level claims. -/

/-- `IsWalk g u v es` holds when the edge list `es` leads from vertex `u` to
vertex `v`, each edge being drawn from the adjacency row of the vertex it
leaves. -/
def IsWalk (g : WeightedAdjacencyList) : Nat → Nat → List GraphEdge → Prop
  | u, v, [] => u = v
  | u, v, e :: es => e ∈ g.getD u [] ∧ IsWalk g e.toV.toNat v es

/-- The sum of the edge weights along a walk. -/
def walkWeight (es : List GraphEdge) : Int := (es.map GraphEdge.weight).sum

/-- `v` can be reached from `u` by following edges of `g`. -/
def Reachable (g : WeightedAdjacencyList) (u v : Nat) : Prop := ∃ es, IsWalk g u v es

/-- The vertices visited by a walk out of `u`, in order. -/
def walkVerts (u : Nat) (es : List GraphEdge) : List Nat :=
  u :: es.map (fun e => e.toV.toNat)

/-- Every edge target of `g` lies in `[0, len(g))`. -/
def EdgesOk (g : WeightedAdjacencyList) : Prop :=
  ∀ row ∈ g, ∀ e ∈ row, 0 ≤ e.toV ∧ e.toV < (g.length : Int)

/-- Every edge weight of `g` is non-negative. -/
def WeightsNonneg (g : WeightedAdjacencyList) : Prop :=
  ∀ row ∈ g, ∀ e ∈ row, 0 ≤ e.weight

instance (g : WeightedAdjacencyList) : Decidable (EdgesOk g) := by
  unfold EdgesOk
  infer_instance

instance (g : WeightedAdjacencyList) : Decidable (WeightsNonneg g) := by
  unfold WeightsNonneg
  infer_instance

theorem edge_target_facts {g : WeightedAdjacencyList} (hE : EdgesOk g) {u : Nat}
    {e : GraphEdge} (he : e ∈ g.getD u []) :
    0 ≤ e.toV ∧ e.toV = (e.toV.toNat : Int) ∧ e.toV.toNat < g.length := by
  by_cases hu : u < g.length
  · have hrow : g.getD u [] ∈ g := by
      rw [List.getD_eq_getElem _ _ hu]
      exact g.getElem_mem hu
    obtain ⟨h0, hlt⟩ := hE _ hrow e he
    refine ⟨h0, (Int.toNat_of_nonneg h0).symm, ?_⟩
    omega
  · rw [List.getD_eq_default _ _ (by omega)] at he
    cases he

theorem edge_weight_fact {g : WeightedAdjacencyList} (hW : WeightsNonneg g) {u : Nat}
    {e : GraphEdge} (he : e ∈ g.getD u []) : 0 ≤ e.weight := by
  by_cases hu : u < g.length
  · have hrow : g.getD u [] ∈ g := by
      rw [List.getD_eq_getElem _ _ hu]
      exact g.getElem_mem hu
    exact hW _ hrow e he
  · rw [List.getD_eq_default _ _ (by omega)] at he
    cases he

theorem walkWeight_nil : walkWeight [] = 0 := rfl

theorem walkWeight_cons (e : GraphEdge) (es : List GraphEdge) :
    walkWeight (e :: es) = e.weight + walkWeight es := by
  simp [walkWeight]

theorem walkWeight_append_edge (es : List GraphEdge) (e : GraphEdge) :
    walkWeight (es ++ [e]) = walkWeight es + e.weight := by
  simp [walkWeight]

theorem IsWalk.append_edge {g : WeightedAdjacencyList} :
    ∀ {es : List GraphEdge} {u v : Nat}, IsWalk g u v es →
      ∀ {e : GraphEdge}, e ∈ g.getD v [] → IsWalk g u e.toV.toNat (es ++ [e]) := by
  intro es
  induction es with
  | nil =>
    intro u v hw e he
    cases hw
    exact ⟨he, rfl⟩
  | cons f fs ih =>
    intro u v hw e he
    exact ⟨hw.1, ih hw.2 he⟩

theorem walkWeight_nonneg {g : WeightedAdjacencyList} (hW : WeightsNonneg g) :
    ∀ {es : List GraphEdge} {u v : Nat}, IsWalk g u v es → 0 ≤ walkWeight es := by
  intro es
  induction es with
  | nil => intro u v _; simp [walkWeight_nil]
  | cons f fs ih =>
    intro u v hw
    rw [walkWeight_cons]
    have h1 := edge_weight_fact hW hw.1
    have h2 := ih hw.2
    omega

theorem walk_target_lt {g : WeightedAdjacencyList} (hE : EdgesOk g) :
    ∀ {es : List GraphEdge} {u v : Nat}, IsWalk g u v es → u < g.length → v < g.length := by
  intro es
  induction es with
  | nil => intro u v hw hu; cases hw; exact hu
  | cons f fs ih =>
    intro u v hw _
    exact ih hw.2 (edge_target_facts hE hw.1).2.2

/-! The structural invariant of the relaxation loop (independent of edge
weights) and the optimality invariant (requiring non-negative weights to be
preserved). -/

/-- Structural invariant of a `dijkstra` query state: the three tables have
length `len(graph)`; seen vertices have finite distance; every recorded
predecessor is a seen vertex joined by an actual edge whose weight accounts
exactly for the distance difference; and the predecessor links are ordered by
some duplicate-free list `L` of the seen vertices (the order in which they
were finalized), which makes the predecessor chains acyclic. -/
structure SInv (g : WeightedAdjacencyList) (st : DijkstraState) : Prop where
  hseen : st.seen.length = g.length
  hprev : st.prev.length = g.length
  hdist : st.dists.length = g.length
  seenFin : ∀ v, v < g.length → st.seen.getD v false = true → st.dists.getD v ⊤ < ⊤
  prevLink : ∀ v, v < g.length → st.prev.getD v (-1) = -1 ∨
    ∃ u : Nat, u < g.length ∧ st.prev.getD v (-1) = (u : Int) ∧
      st.seen.getD u false = true ∧
      ∃ e ∈ g.getD u [], e.toV = (v : Int) ∧
        st.dists.getD v ⊤ = st.dists.getD u ⊤ + (e.weight : DistVal)
  ord : ∃ L : List Nat, L.Nodup ∧
    (∀ v : Nat, v ∈ L ↔ v < g.length ∧ st.seen.getD v false = true) ∧
    (∀ v : Nat, v < g.length → ∀ u : Nat, st.prev.getD v (-1) = (u : Int) →
      u ∈ L ∧ (v ∈ L → L.indexOf u < L.indexOf v))

/-- Optimality invariant of a `dijkstra` query started at source `s`:
distances are achieved by actual walks, seen vertices carry optimal
distances, all edges out of seen vertices are relaxed, seen distances are
below unseen ones, and bookkeeping facts tying the state to the source. -/
structure OInv (g : WeightedAdjacencyList) (s : Nat) (st : DijkstraState) : Prop where
  sle : st.dists.getD s ⊤ ≤ 0
  ach : ∀ v, v < g.length → ∀ d : Int, st.dists.getD v ⊤ = (d : DistVal) →
    ∃ es, IsWalk g s v es ∧ walkWeight es = d
  opt : ∀ u, u < g.length → st.seen.getD u false = true →
    ∀ es, IsWalk g s u es → st.dists.getD u ⊤ ≤ (walkWeight es : DistVal)
  rel : ∀ u, u < g.length → st.seen.getD u false = true →
    ∀ e ∈ g.getD u [], st.dists.getD e.toV.toNat ⊤ ≤ st.dists.getD u ⊤ + (e.weight : DistVal)
  bnd : ∀ u v, u < g.length → v < g.length → st.seen.getD u false = true →
    st.seen.getD v false = false → st.dists.getD u ⊤ ≤ st.dists.getD v ⊤
  finPrev : ∀ v, v < g.length → v ≠ s → st.dists.getD v ⊤ < ⊤ →
    st.prev.getD v (-1) ≠ -1
  prevS : st.prev.getD s (-1) = -1
  startCase : (∀ v, v < g.length → st.seen.getD v false = false) →
    st.dists = (List.replicate g.length (⊤ : DistVal)).set s 0
  seenS : (∃ v, v < g.length ∧ st.seen.getD v false = true) → st.seen.getD s false = true

/-! One-step unfolding of `relaxLoop` and its master lemma describing exactly
how one pass over an adjacency row changes the state. -/

theorem relaxLoop_cons_unfold (e : GraphEdge) (rest : List GraphEdge) (st : DijkstraState)
    (t c' : Nat) (ht : e.toV = (t : Int))
    (hts : t < st.seen.length) (htd : t < st.dists.length) (htp : t < st.prev.length)
    (hcd : c' < st.dists.length) :
    relaxLoop (c' : Int) (e :: rest) st =
      if st.seen.getD t false then relaxLoop (c' : Int) rest st
      else if st.dists.getD c' ⊤ + (e.weight : DistVal) < st.dists.getD t ⊤ then
        relaxLoop (c' : Int) rest
          { st with dists := st.dists.set t (st.dists.getD c' ⊤ + (e.weight : DistVal)),
                    prev := st.prev.set t (c' : Int) }
      else relaxLoop (c' : Int) rest st := by
  rw [relaxLoop, ht]
  rw [pyGet_coe st.seen false hts]
  simp only [ok_bind]
  cases hs : st.seen.getD t false with
  | true => simp
  | false =>
    simp only [Bool.false_eq_true, if_false]
    rw [pyGet_coe st.dists ⊤ hcd, pyGet_coe st.dists ⊤ htd]
    simp only [ok_bind]
    by_cases hlt : st.dists.getD c' ⊤ + (e.weight : DistVal) < st.dists.getD t ⊤
    · rw [if_pos hlt, if_pos hlt, pySet_coe st.dists _ htd]
      simp only [ok_bind]
      rw [pySet_coe st.prev _ htp]
      simp only [ok_bind]
    · rw [if_neg hlt, if_neg hlt]

/-- Everything the relaxation pass over one adjacency row guarantees:
`seen` is untouched, lengths are kept, distances only decrease, entries of
seen vertices are frozen, and any change is a relaxation through one of the
processed edges. -/
def RelaxOut (c : Nat) (edges : List GraphEdge) (st st' : DijkstraState) : Prop :=
  st'.seen = st.seen ∧ st'.prev.length = st.prev.length ∧
  st'.dists.length = st.dists.length ∧
  (∀ v : Nat, st'.dists.getD v ⊤ ≤ st.dists.getD v ⊤) ∧
  (∀ v : Nat, st.seen.getD v false = true →
    st'.dists.getD v ⊤ = st.dists.getD v ⊤ ∧ st'.prev.getD v (-1) = st.prev.getD v (-1)) ∧
  (∀ v : Nat,
    (st'.dists.getD v ⊤ = st.dists.getD v ⊤ ∧ st'.prev.getD v (-1) = st.prev.getD v (-1)) ∨
    (st.seen.getD v false = false ∧ st'.prev.getD v (-1) = (c : Int) ∧
      ∃ e ∈ edges, e.toV = (v : Int) ∧
        st'.dists.getD v ⊤ = st.dists.getD c ⊤ + (e.weight : DistVal) ∧
        st'.dists.getD v ⊤ < st.dists.getD v ⊤))

theorem relax_master {g : WeightedAdjacencyList} {c : Nat} (hc : c < g.length) :
    ∀ (edges : List GraphEdge) (st : DijkstraState),
      st.seen.length = g.length → st.prev.length = g.length → st.dists.length = g.length →
      st.seen.getD c false = true →
      (∀ e ∈ edges, ∃ t : Nat, e.toV = (t : Int) ∧ t < g.length) →
      ∃ st', relaxLoop (c : Int) edges st = .ok st' ∧ RelaxOut c edges st st' := by
  intro edges
  induction edges with
  | nil =>
    intro st _ _ _ _ _
    exact ⟨st, rfl, rfl, rfl, rfl, fun v => le_refl _, fun v _ => ⟨rfl, rfl⟩,
      fun v => Or.inl ⟨rfl, rfl⟩⟩
  | cons e rest ih =>
    intro st hls hlp hld hseenc hE
    obtain ⟨t, ht, htlt⟩ := hE e (List.mem_cons_self e rest)
    have hE' : ∀ e' ∈ rest, ∃ t' : Nat, e'.toV = (t' : Int) ∧ t' < g.length :=
      fun e' he' => hE e' (List.mem_cons_of_mem e he')
    rw [relaxLoop_cons_unfold e rest st t c ht (by omega) (by omega) (by omega) (by omega)]
    cases hs : st.seen.getD t false with
    | true =>
      simp only [if_true]
      obtain ⟨st', heq, o1, o2, o3, o4, o5, o6⟩ := ih st hls hlp hld hseenc hE'
      refine ⟨st', heq, o1, o2, o3, o4, o5, fun v => ?_⟩
      rcases o6 v with h | ⟨h1, h2, e', he', h3⟩
      · exact Or.inl h
      · exact Or.inr ⟨h1, h2, e', List.mem_cons_of_mem e he', h3⟩
    | false =>
      simp only [Bool.false_eq_true, if_false]
      have hct : c ≠ t := fun hcon => by rw [hcon, hs] at hseenc; cases hseenc
      by_cases hlt : st.dists.getD c ⊤ + (e.weight : DistVal) < st.dists.getD t ⊤
      · rw [if_pos hlt]
        set dnew := st.dists.getD c ⊤ + (e.weight : DistVal) with hdnew
        set st₁ : DijkstraState :=
          { st with dists := st.dists.set t dnew, prev := st.prev.set t (c : Int) } with hst₁
        have hseen₁ : st₁.seen = st.seen := rfl
        have hd₁self : st₁.dists.getD t ⊤ = dnew :=
          getD_set_self st.dists t dnew ⊤ (by omega)
        have hd₁ne : ∀ v : Nat, v ≠ t → st₁.dists.getD v ⊤ = st.dists.getD v ⊤ :=
          fun v hv => getD_set_ne st.dists dnew ⊤ (fun hcon => hv hcon.symm)
        have hp₁self : st₁.prev.getD t (-1) = (c : Int) :=
          getD_set_self st.prev t (c : Int) (-1) (by omega)
        have hp₁ne : ∀ v : Nat, v ≠ t → st₁.prev.getD v (-1) = st.prev.getD v (-1) :=
          fun v hv => getD_set_ne st.prev (c : Int) (-1) (fun hcon => hv hcon.symm)
        have hd₁c : st₁.dists.getD c ⊤ = st.dists.getD c ⊤ := hd₁ne c hct
        have hd₁le : ∀ v : Nat, st₁.dists.getD v ⊤ ≤ st.dists.getD v ⊤ := by
          intro v
          by_cases hv : v = t
          · subst hv; rw [hd₁self]; exact le_of_lt hlt
          · rw [hd₁ne v hv]
        obtain ⟨st', heq, o1, o2, o3, o4, o5, o6⟩ :=
          ih st₁ (by simpa using hls) (by simp [hst₁]; omega) (by simp [hst₁]; omega)
            (by rwa [hseen₁]) hE'
        refine ⟨st', heq, by rw [o1, hseen₁], by simp at o2 ⊢; omega,
          by simp at o3 ⊢; omega, ?_, ?_, ?_⟩
        · intro v
          exact le_trans (o4 v) (hd₁le v)
        · intro v hv
          have hvt : v ≠ t := fun hcon => by rw [hcon, hs] at hv; cases hv
          have := o5 v (by rwa [hseen₁])
          exact ⟨by rw [this.1, hd₁ne v hvt], by rw [this.2, hp₁ne v hvt]⟩
        · intro v
          rcases o6 v with ⟨h1, h2⟩ | ⟨h1, h2, e', he', h3, h4, h5⟩
          · by_cases hv : v = t
            · subst hv
              refine Or.inr ⟨hs, by rw [h2, hp₁self], e, List.mem_cons_self e rest, ht,
                by rw [h1, hd₁self], by rw [h1, hd₁self]; exact hlt⟩
            · exact Or.inl ⟨by rw [h1, hd₁ne v hv], by rw [h2, hp₁ne v hv]⟩
          · refine Or.inr ⟨by rw [hseen₁] at h1; exact h1, h2, e',
              List.mem_cons_of_mem e he', h3, by rw [h4, hd₁c],
              lt_of_lt_of_le h5 (hd₁le v)⟩
      · rw [if_neg hlt]
        obtain ⟨st', heq, o1, o2, o3, o4, o5, o6⟩ := ih st hls hlp hld hseenc hE'
        refine ⟨st', heq, o1, o2, o3, o4, o5, fun v => ?_⟩
        rcases o6 v with h | ⟨h1, h2, e', he', h3⟩
        · exact Or.inl h
        · exact Or.inr ⟨h1, h2, e', List.mem_cons_of_mem e he', h3⟩

theorem relax_bound {g : WeightedAdjacencyList} {c : Nat} (hc : c < g.length) :
    ∀ (edges : List GraphEdge) (st : DijkstraState),
      st.seen.length = g.length → st.prev.length = g.length → st.dists.length = g.length →
      st.seen.getD c false = true →
      (∀ e ∈ edges, ∃ t : Nat, e.toV = (t : Int) ∧ t < g.length) →
      (∀ e ∈ edges, st.seen.getD e.toV.toNat false = true →
        st.dists.getD e.toV.toNat ⊤ ≤ st.dists.getD c ⊤ + (e.weight : DistVal)) →
      ∀ st', relaxLoop (c : Int) edges st = .ok st' →
        ∀ e ∈ edges, st'.dists.getD e.toV.toNat ⊤ ≤ st.dists.getD c ⊤ + (e.weight : DistVal) := by
  intro edges
  induction edges with
  | nil => intro st _ _ _ _ _ _ st' _ e he; cases he
  | cons e rest ih =>
    intro st hls hlp hld hseenc hE hskip st' heq f hf
    obtain ⟨t, ht, htlt⟩ := hE e (List.mem_cons_self e rest)
    have htn : e.toV.toNat = t := by rw [ht]; simp
    have hE' : ∀ e' ∈ rest, ∃ t' : Nat, e'.toV = (t' : Int) ∧ t' < g.length :=
      fun e' he' => hE e' (List.mem_cons_of_mem e he')
    have hskip' : ∀ e' ∈ rest, st.seen.getD e'.toV.toNat false = true →
        st.dists.getD e'.toV.toNat ⊤ ≤ st.dists.getD c ⊤ + (e'.weight : DistVal) :=
      fun e' he' => hskip e' (List.mem_cons_of_mem e he')
    rw [relaxLoop_cons_unfold e rest st t c ht (by omega) (by omega) (by omega) (by omega)]
      at heq
    cases hs : st.seen.getD t false with
    | true =>
      rw [hs, if_pos rfl] at heq
      rcases List.mem_cons.mp hf with rfl | hf'
      · obtain ⟨st'', heq'', o1, o2, o3, o4, o5, o6⟩ :=
          relax_master hc rest st hls hlp hld hseenc hE'
        have hst : st'' = st' := by rw [heq''] at heq; exact Except.ok.inj heq
        subst hst
        rw [htn, (o5 t hs).1]
        have := hskip f (List.mem_cons_self f rest) (by rw [htn]; exact hs)
        rwa [htn] at this
      · exact ih st hls hlp hld hseenc hE' hskip' st' heq f hf'
    | false =>
      rw [hs, if_neg (by simp)] at heq
      by_cases hlt : st.dists.getD c ⊤ + (e.weight : DistVal) < st.dists.getD t ⊤
      · rw [if_pos hlt] at heq
        set dnew := st.dists.getD c ⊤ + (e.weight : DistVal) with hdnew
        set st₁ : DijkstraState :=
          { st with dists := st.dists.set t dnew, prev := st.prev.set t (c : Int) } with hst₁
        have hct : c ≠ t := fun hcon => by rw [hcon, hs] at hseenc; cases hseenc
        have hd₁self : st₁.dists.getD t ⊤ = dnew :=
          getD_set_self st.dists t dnew ⊤ (by omega)
        have hd₁ne : ∀ v : Nat, v ≠ t → st₁.dists.getD v ⊤ = st.dists.getD v ⊤ :=
          fun v hv => getD_set_ne st.dists dnew ⊤ (fun hcon => hv hcon.symm)
        have hd₁c : st₁.dists.getD c ⊤ = st.dists.getD c ⊤ := hd₁ne c hct
        have hls₁ : st₁.seen.length = g.length := hls
        have hlp₁ : st₁.prev.length = g.length := by simp [hst₁]; omega
        have hld₁ : st₁.dists.length = g.length := by simp [hst₁]; omega
        have hskip₁ : ∀ e' ∈ rest, st₁.seen.getD e'.toV.toNat false = true →
            st₁.dists.getD e'.toV.toNat ⊤ ≤ st₁.dists.getD c ⊤ + (e'.weight : DistVal) := by
          intro e' he' hsn
          obtain ⟨t', ht', _⟩ := hE' e' he'
          have htn' : e'.toV.toNat = t' := by rw [ht']; simp
          have hsn' : st.seen.getD t' false = true := by rw [← htn']; exact hsn
          have ht'ne : t' ≠ t := by
            intro hcon
            rw [hcon, hs] at hsn'
            cases hsn'
          have hsk := hskip e' (List.mem_cons_of_mem e he') (by rw [htn']; exact hsn')
          rw [htn'] at hsk ⊢
          rwa [hd₁ne t' ht'ne, hd₁c]
        rcases List.mem_cons.mp hf with rfl | hf'
        · obtain ⟨st'', heq'', o1, o2, o3, o4, o5, o6⟩ :=
            relax_master hc rest st₁ hls₁ hlp₁ hld₁ hseenc hE'
          have hst : st'' = st' := by rw [heq''] at heq; exact Except.ok.inj heq
          subst hst
          rw [htn]
          exact le_trans (o4 t) (le_of_eq hd₁self)
        · have hres := ih st₁ hls₁ hlp₁ hld₁ hseenc hE' hskip₁ st' heq f hf'
          rwa [hd₁c] at hres
      · rw [if_neg hlt] at heq
        rcases List.mem_cons.mp hf with rfl | hf'
        · obtain ⟨st'', heq'', o1, o2, o3, o4, o5, o6⟩ :=
            relax_master hc rest st hls hlp hld hseenc hE'
          have hst : st'' = st' := by rw [heq''] at heq; exact Except.ok.inj heq
          subst hst
          rw [htn]
          exact le_trans (o4 t) (not_lt.mp hlt)
        · exact ih st hls hlp hld hseenc hE' hskip' st' heq f hf'

/-! One iteration of the main loop: runs without error whenever some
unvisited vertex has finite distance, marks exactly the minimum unvisited
vertex seen, and preserves the structural invariant. -/

theorem seen_set_mono {seen : List Bool} {c v : Nat} (h : seen.getD v false = true) :
    (seen.set c true).getD v false = true := by
  by_cases hv : c = v
  · subst hv
    by_cases hc : c < seen.length
    · exact getD_set_self seen c true false hc
    · rw [List.set_eq_of_length_le (by omega)]
      exact h
  · rwa [getD_set_ne seen true false hv]

theorem step_sinv {g : WeightedAdjacencyList} {st : DijkstraState}
    (hS : SInv g st) (hE : EdgesOk g)
    (hHU : ∃ j, j < g.length ∧ st.seen.getD j false = false ∧ st.dists.getD j ⊤ < ⊤) :
    ∃ (c : Nat) (st' : DijkstraState), dijkstraStep g st = .ok st' ∧
      c < g.length ∧ st.seen.getD c false = false ∧ st.dists.getD c ⊤ < ⊤ ∧
      (∀ j, j < g.length → st.seen.getD j false = false →
        st.dists.getD c ⊤ ≤ st.dists.getD j ⊤) ∧
      st'.seen = st.seen.set c true ∧
      st'.dists.getD c ⊤ = st.dists.getD c ⊤ ∧
      (∀ v : Nat, st'.dists.getD v ⊤ ≤ st.dists.getD v ⊤) ∧
      (∀ v : Nat, st.seen.getD v false = true →
        st'.dists.getD v ⊤ = st.dists.getD v ⊤ ∧ st'.prev.getD v (-1) = st.prev.getD v (-1)) ∧
      (∀ v : Nat,
        (st'.dists.getD v ⊤ = st.dists.getD v ⊤ ∧ st'.prev.getD v (-1) = st.prev.getD v (-1)) ∨
        (v ≠ c ∧ st.seen.getD v false = false ∧ st'.prev.getD v (-1) = (c : Int) ∧
          ∃ e ∈ g.getD c [], e.toV = (v : Int) ∧
            st'.dists.getD v ⊤ = st.dists.getD c ⊤ + (e.weight : DistVal) ∧
            st'.dists.getD v ⊤ < st.dists.getD v ⊤)) ∧
      relaxLoop (c : Int) (g.getD c []) { st with seen := st.seen.set c true } = .ok st' ∧
      SInv g st' := by
  obtain ⟨hls, hlp, hld, hseenFin, hprevLink, hord⟩ := hS
  obtain ⟨c, hglow, hclen', hcseen, hcfin, hcmin, _⟩ :=
    get_lowest_pos st.seen st.dists (by omega)
      (by obtain ⟨j, h1, h2, h3⟩ := hHU; exact ⟨j, by omega, h2, h3⟩)
  have hclen : c < g.length := by omega
  set stM : DijkstraState := { st with seen := st.seen.set c true } with hstM
  have hMseen : stM.seen = st.seen.set c true := rfl
  have hMc : stM.seen.getD c false = true := getD_set_self st.seen c true false (by omega)
  have hMne : ∀ v : Nat, v ≠ c → stM.seen.getD v false = st.seen.getD v false :=
    fun v hv => getD_set_ne st.seen true false (fun hcon => hv hcon.symm)
  have hEdges : ∀ e ∈ g.getD c [], ∃ t : Nat, e.toV = (t : Int) ∧ t < g.length := by
    intro e he
    obtain ⟨_, heq, hlt⟩ := edge_target_facts hE he
    exact ⟨e.toV.toNat, heq, hlt⟩
  obtain ⟨st', heq, o1, o2, o3, o4, o5, o6⟩ :=
    relax_master hclen (g.getD c []) stM (by simp [hstM]; omega) hlp hld hMc hEdges
  have hrun : dijkstraStep g st = .ok st' := by
    rw [dijkstraStep, hglow]
    simp only [ok_bind]
    rw [pySet_coe st.seen true (by omega)]
    simp only [ok_bind]
    rw [pyGet_coe g ([] : List GraphEdge) hclen]
    simp only [ok_bind]
    exact heq
  have hseen' : st'.seen = st.seen.set c true := by rw [o1]
  have hstM_d : stM.dists = st.dists := rfl
  have hstM_p : stM.prev = st.prev := rfl
  have hstable : ∀ v : Nat, st.seen.getD v false = true →
      st'.dists.getD v ⊤ = st.dists.getD v ⊤ ∧ st'.prev.getD v (-1) = st.prev.getD v (-1) := by
    intro v hv
    exact o5 v (seen_set_mono hv)
  have hdc : st'.dists.getD c ⊤ = st.dists.getD c ⊤ := (o5 c hMc).1
  have hchange : ∀ v : Nat,
      (st'.dists.getD v ⊤ = st.dists.getD v ⊤ ∧ st'.prev.getD v (-1) = st.prev.getD v (-1)) ∨
      (v ≠ c ∧ st.seen.getD v false = false ∧ st'.prev.getD v (-1) = (c : Int) ∧
        ∃ e ∈ g.getD c [], e.toV = (v : Int) ∧
          st'.dists.getD v ⊤ = st.dists.getD c ⊤ + (e.weight : DistVal) ∧
          st'.dists.getD v ⊤ < st.dists.getD v ⊤) := by
    intro v
    rcases o6 v with h | ⟨h1, h2, e, he, h3⟩
    · exact Or.inl h
    · have hvc : v ≠ c := by
        intro hcon
        rw [hcon, hMc] at h1
        cases h1
      exact Or.inr ⟨hvc, by rwa [hMne v hvc] at h1, h2, e, he, h3⟩
  refine ⟨c, st', hrun, hclen, hcseen, hcfin,
    fun j hj hsj => hcmin j (by omega) hsj, hseen', hdc, fun v => o4 v, hstable, hchange,
    by rw [← hstM]; exact heq, ?_⟩
  constructor
  · rw [hseen']; simp; omega
  · rw [o2, hstM_p]; exact hlp
  · rw [o3, hstM_d]; exact hld
  · intro v hv hsv
    rw [hseen'] at hsv
    by_cases hvc : v = c
    · subst hvc
      rw [hdc]
      exact hcfin
    · rw [getD_set_ne st.seen true false (fun hcon => hvc hcon.symm)] at hsv
      exact lt_of_le_of_lt (o4 v) (hseenFin v hv hsv)
  · intro v hv
    rcases hchange v with ⟨hdv, hpv⟩ | ⟨hvc, hvs, hpv, e, he, het, hdv, _⟩
    · rcases hprevLink v hv with h | ⟨u, hu1, hu2, hu3, e, he, he2, he3⟩
      · exact Or.inl (by rw [hpv]; exact h)
      · refine Or.inr ⟨u, hu1, by rw [hpv]; exact hu2, by rw [hseen']; exact seen_set_mono hu3,
          e, he, he2, ?_⟩
        rw [hdv, (hstable u hu3).1]
        exact he3
    · refine Or.inr ⟨c, hclen, hpv, by rw [hseen']; exact getD_set_self st.seen c true false (by omega),
        e, he, het, by rw [hdv, hdc]⟩
  · obtain ⟨L, hnd, hmem, hlink⟩ := hord
    have hcL : c ∉ L := fun hcon => by
      rw [(hmem c).mp hcon |>.2] at hcseen
      cases hcseen
    refine ⟨L ++ [c], ?_, ?_, ?_⟩
    · rw [List.nodup_append]
      exact ⟨hnd, List.nodup_singleton c, fun a ha hb => by
        rw [List.mem_singleton] at hb
        exact hcL (hb ▸ ha)⟩
    · intro v
      rw [List.mem_append, List.mem_singleton, hseen']
      constructor
      · rintro (hvL | rfl)
        · obtain ⟨h1, h2⟩ := (hmem v).mp hvL
          exact ⟨h1, seen_set_mono h2⟩
        · exact ⟨hclen, getD_set_self st.seen v true false (by omega)⟩
      · rintro ⟨h1, h2⟩
        by_cases hvc : v = c
        · exact Or.inr hvc
        · rw [getD_set_ne st.seen true false (fun hcon => hvc hcon.symm)] at h2
          exact Or.inl ((hmem v).mpr ⟨h1, h2⟩)
    · intro v hv u hpu
      rcases hchange v with ⟨_, hpv⟩ | ⟨hvc, hvs, hpv, _⟩
      · rw [hpv] at hpu
        obtain ⟨huL, hidx⟩ := hlink v hv u hpu
        refine ⟨List.mem_append_left _ huL, ?_⟩
        intro hvL'
        rw [List.mem_append, List.mem_singleton] at hvL'
        rcases hvL' with hvL | rfl
        · rw [List.indexOf_append_of_mem huL, List.indexOf_append_of_mem hvL]
          exact hidx hvL
        · rw [List.indexOf_append_of_mem huL, List.indexOf_append_of_not_mem hcL]
          have := List.indexOf_lt_length.mpr huL
          simp
          omega
      · rw [hpv] at hpu
        have huc : u = c := by exact_mod_cast hpu.symm
        subst huc
        refine ⟨List.mem_append_right _ (List.mem_singleton_self u), ?_⟩
        intro hvL'
        rw [List.mem_append, List.mem_singleton] at hvL'
        rcases hvL' with hvL | rfl
        · exact absurd ((hmem v).mp hvL).2 (by rw [hvs]; simp)
        · exact absurd rfl hvc

/-! The frontier-crossing lemma: a walk from a seen vertex to an unseen one
passes some unseen vertex whose tentative distance is at most the weight of
the walk (plus the seen start's distance), because all edges out of seen
vertices are relaxed. -/

theorem walk_to_unseen {g : WeightedAdjacencyList} {st : DijkstraState}
    (hE : EdgesOk g) (hW : WeightsNonneg g)
    (hrel : ∀ u, u < g.length → st.seen.getD u false = true →
      ∀ e ∈ g.getD u [], st.dists.getD e.toV.toNat ⊤ ≤ st.dists.getD u ⊤ + (e.weight : DistVal)) :
    ∀ (es : List GraphEdge) (u t : Nat), IsWalk g u t es → u < g.length →
      st.seen.getD u false = true → st.seen.getD t false = false →
      ∃ y, y < g.length ∧ st.seen.getD y false = false ∧
        st.dists.getD y ⊤ ≤ st.dists.getD u ⊤ + (walkWeight es : DistVal) := by
  intro es
  induction es with
  | nil =>
    intro u t hwalk hu hsu hst
    have hut : u = t := hwalk
    rw [hut, hst] at hsu
    cases hsu
  | cons e es ih =>
    intro u t hwalk hu hsu hst
    have he : e ∈ g.getD u [] := hwalk.1
    have hwalk' : IsWalk g e.toV.toNat t es := hwalk.2
    obtain ⟨h0, heq, hmlt⟩ := edge_target_facts hE he
    cases hsm : st.seen.getD e.toV.toNat false with
    | false =>
      refine ⟨e.toV.toNat, hmlt, hsm, ?_⟩
      have h1 := hrel u hu hsu e he
      have h2 : (0 : DistVal) ≤ (walkWeight es : DistVal) := by
        exact_mod_cast walkWeight_nonneg hW hwalk'
      calc st.dists.getD e.toV.toNat ⊤ ≤ st.dists.getD u ⊤ + (e.weight : DistVal) := h1
        _ ≤ st.dists.getD u ⊤ + (e.weight : DistVal) + (walkWeight es : DistVal) :=
            le_add_of_nonneg_right h2
        _ = st.dists.getD u ⊤ + (walkWeight (e :: es) : DistVal) := by
            rw [walkWeight_cons]
            push_cast
            rw [add_assoc]
    | true =>
      obtain ⟨y, hy1, hy2, hy3⟩ := ih e.toV.toNat t hwalk' hmlt hsm hst
      refine ⟨y, hy1, hy2, ?_⟩
      calc st.dists.getD y ⊤ ≤ st.dists.getD e.toV.toNat ⊤ + (walkWeight es : DistVal) := hy3
        _ ≤ st.dists.getD u ⊤ + (e.weight : DistVal) + (walkWeight es : DistVal) :=
            add_le_add_right (hrel u hu hsu e he) _
        _ = st.dists.getD u ⊤ + (walkWeight (e :: es) : DistVal) := by
            rw [walkWeight_cons]
            push_cast
            rw [add_assoc]

/-! Preservation of the optimality invariant by one step, given the facts
established by `step_sinv` about that step. -/

theorem step_oinv {g : WeightedAdjacencyList} {s : Nat} {st st' : DijkstraState} {c : Nat}
    (hE : EdgesOk g) (hW : WeightsNonneg g) (hs : s < g.length)
    (hS : SInv g st) (hO : OInv g s st)
    (hclen : c < g.length) (hcseen : st.seen.getD c false = false)
    (hcfin : st.dists.getD c ⊤ < ⊤)
    (hcmin : ∀ j, j < g.length → st.seen.getD j false = false →
      st.dists.getD c ⊤ ≤ st.dists.getD j ⊤)
    (hseen' : st'.seen = st.seen.set c true)
    (hdc : st'.dists.getD c ⊤ = st.dists.getD c ⊤)
    (hle : ∀ v : Nat, st'.dists.getD v ⊤ ≤ st.dists.getD v ⊤)
    (hstable : ∀ v : Nat, st.seen.getD v false = true →
      st'.dists.getD v ⊤ = st.dists.getD v ⊤ ∧ st'.prev.getD v (-1) = st.prev.getD v (-1))
    (hchange : ∀ v : Nat,
      (st'.dists.getD v ⊤ = st.dists.getD v ⊤ ∧ st'.prev.getD v (-1) = st.prev.getD v (-1)) ∨
      (v ≠ c ∧ st.seen.getD v false = false ∧ st'.prev.getD v (-1) = (c : Int) ∧
        ∃ e ∈ g.getD c [], e.toV = (v : Int) ∧
          st'.dists.getD v ⊤ = st.dists.getD c ⊤ + (e.weight : DistVal) ∧
          st'.dists.getD v ⊤ < st.dists.getD v ⊤))
    (hrelq : relaxLoop (c : Int) (g.getD c []) { st with seen := st.seen.set c true } = .ok st') :
    OInv g s st' := by
  have hseenc' : st'.seen.getD c false = true := by
    rw [hseen']
    exact getD_set_self st.seen c true false (by rw [hS.hseen]; omega)
  have hseen'_old : ∀ v : Nat, v ≠ c → st'.seen.getD v false = st.seen.getD v false := by
    intro v hv
    rw [hseen']
    exact getD_set_ne st.seen true false (fun hcon => hv hcon.symm)
  have hcs_of_none : (∀ v, v < g.length → st.seen.getD v false = false) → c = s := by
    intro hall
    by_contra hcs
    have hd := hO.startCase hall
    have : st.dists.getD c ⊤ = ⊤ := by
      rw [hd, getD_set_ne _ _ _ (fun hcon => hcs hcon.symm),
        getD_replicate_lt g.length c ⊤ ⊤ hclen]
    rw [this] at hcfin
    exact absurd hcfin (lt_irrefl _)
  -- the relaxed-edge bound at the new vertex `c`, via relax_bound
  have hrelpost : ∀ e ∈ g.getD c [], st'.dists.getD e.toV.toNat ⊤ ≤
      st'.dists.getD c ⊤ + (e.weight : DistVal) := by
    set stM : DijkstraState := { st with seen := st.seen.set c true } with hstM
    have hMc : stM.seen.getD c false = true := by
      exact getD_set_self st.seen c true false (by rw [hS.hseen]; omega)
    have hEdges : ∀ e ∈ g.getD c [], ∃ t : Nat, e.toV = (t : Int) ∧ t < g.length := by
      intro e he
      obtain ⟨_, heqv, hlt⟩ := edge_target_facts hE he
      exact ⟨e.toV.toNat, heqv, hlt⟩
    have hskip : ∀ e ∈ g.getD c [], stM.seen.getD e.toV.toNat false = true →
        stM.dists.getD e.toV.toNat ⊤ ≤ stM.dists.getD c ⊤ + (e.weight : DistVal) := by
      intro e he hsn
      have hw := edge_weight_fact hW he
      have hw' : (0 : DistVal) ≤ (e.weight : DistVal) := by exact_mod_cast hw
      obtain ⟨_, heqv, hlt⟩ := edge_target_facts hE he
      by_cases htc : e.toV.toNat = c
      · rw [htc]
        exact le_add_of_nonneg_right hw'
      · have hsn' : st.seen.getD e.toV.toNat false = true := by
          rw [hstM] at hsn
          rwa [getD_set_ne st.seen true false (fun hcon => htc hcon.symm)] at hsn
        have := hO.bnd e.toV.toNat c hlt hclen hsn' hcseen
        exact le_add_of_nonneg_right hw' |>.trans' this
    have := relax_bound hclen (g.getD c []) stM (by simp [hstM]; exact hS.hseen)
      (by rw [hstM]; exact hS.hprev) (by rw [hstM]; exact hS.hdist) hMc hEdges hskip st' hrelq
    intro e he
    have h1 := this e he
    rw [show stM.dists = st.dists from rfl] at h1
    rw [hdc]
    exact h1
  constructor
  · exact le_trans (hle s) hO.sle
  · intro v hv d hd
    rcases hchange v with ⟨h1, _⟩ | ⟨hvc, hvs, _, e, he, het, h3, _⟩
    · exact hO.ach v hv d (by rw [← h1]; exact hd)
    · obtain ⟨dc, hdcv⟩ := WithTop.ne_top_iff_exists.mp (ne_of_lt hcfin)
      rw [h3, ← hdcv] at hd
      have hd' : ((dc + e.weight : Int) : DistVal) = (d : DistVal) := by
        push_cast
        exact hd
      have hdval : dc + e.weight = d := by exact_mod_cast hd'
      obtain ⟨es, hwk, hwt⟩ := hO.ach c hclen dc hdcv.symm
      refine ⟨es ++ [e], ?_, ?_⟩
      · have := IsWalk.append_edge hwk he
        rwa [show e.toV.toNat = v from by rw [het]; simp] at this
      · rw [walkWeight_append_edge, hwt, hdval]
  · intro u hu hsu es hwalk
    by_cases huc : u = c
    · subst huc
      rw [hdc]
      by_cases hany : ∃ v, v < g.length ∧ st.seen.getD v false = true
      · have hss : st.seen.getD s false = true := hO.seenS hany
        obtain ⟨y, hy1, hy2, hy3⟩ := walk_to_unseen hE hW hO.rel es s u hwalk hs hss hcseen
        calc st.dists.getD u ⊤ ≤ st.dists.getD y ⊤ := hcmin y hy1 hy2
          _ ≤ st.dists.getD s ⊤ + (walkWeight es : DistVal) := hy3
          _ ≤ 0 + (walkWeight es : DistVal) := add_le_add_right hO.sle _
          _ = (walkWeight es : DistVal) := zero_add _
      · push_neg at hany
        have hall : ∀ v, v < g.length → st.seen.getD v false = false := by
          intro v hv
          cases hsv : st.seen.getD v false with
          | false => rfl
          | true => exact absurd hsv (hany v hv)
        have hcs : u = s := hcs_of_none hall
        subst hcs
        have hd := hO.startCase hall
        have hds : st.dists.getD u ⊤ = (0 : DistVal) := by
          rw [hd, getD_set_self _ _ _ _ (by simp; omega)]
        rw [hds]
        have := walkWeight_nonneg hW hwalk
        exact_mod_cast this
    · have hsu' : st.seen.getD u false = true := by rw [← hseen'_old u huc]; exact hsu
      rw [(hstable u hsu').1]
      exact hO.opt u hu hsu' es hwalk
  · intro u hu hsu e he
    by_cases huc : u = c
    · subst huc
      exact hrelpost e he
    · have hsu' : st.seen.getD u false = true := by rw [← hseen'_old u huc]; exact hsu
      rw [(hstable u hsu').1]
      exact le_trans (hle e.toV.toNat) (hO.rel u hu hsu' e he)
  · intro u v hu hv hsu hsv
    have hvc : v ≠ c := by
      intro hcon
      rw [hcon, hseenc'] at hsv
      cases hsv
    have hsv' : st.seen.getD v false = false := by rw [← hseen'_old v hvc]; exact hsv
    have hu_to_c : st.dists.getD u ⊤ ≤ st.dists.getD c ⊤ → st'.dists.getD u ⊤ ≤ st'.dists.getD v ⊤ → True := fun _ _ => trivial
    have hub : st'.dists.getD u ⊤ ≤ st.dists.getD c ⊤ := by
      by_cases huc : u = c
      · subst huc
        rw [hdc]
      · have hsu' : st.seen.getD u false = true := by rw [← hseen'_old u huc]; exact hsu
        rw [(hstable u hsu').1]
        exact hO.bnd u c hu hclen hsu' hcseen
    have hub2 : st'.dists.getD u ⊤ ≤ st.dists.getD v ⊤ := by
      by_cases huc : u = c
      · subst huc
        rw [hdc]
        exact hcmin v hv hsv'
      · have hsu' : st.seen.getD u false = true := by rw [← hseen'_old u huc]; exact hsu
        rw [(hstable u hsu').1]
        exact hO.bnd u v hu hv hsu' hsv'
    rcases hchange v with ⟨h1, _⟩ | ⟨_, _, _, e, he, _, h3, _⟩
    · rw [h1]
      exact hub2
    · rw [h3]
      have hw' : (0 : DistVal) ≤ (e.weight : DistVal) := by
        exact_mod_cast edge_weight_fact hW he
      exact le_trans hub (le_add_of_nonneg_right hw')
  · intro v hv hvs hfin
    rcases hchange v with ⟨h1, h2⟩ | ⟨_, _, h2, _⟩
    · rw [h2]
      exact hO.finPrev v hv hvs (by rw [← h1]; exact hfin)
    · rw [h2]
      intro hcon
      omega
  · rcases hchange s with ⟨_, h2⟩ | ⟨_, _, hpv, e, he, _, h3, h4⟩
    · rw [h2]
      exact hO.prevS
    · exfalso
      obtain ⟨dc, hdcv⟩ := WithTop.ne_top_iff_exists.mp (ne_of_lt hcfin)
      obtain ⟨es₀, hwk₀, hwt₀⟩ := hO.ach c hclen dc hdcv.symm
      have hdc0 : 0 ≤ dc := hwt₀ ▸ walkWeight_nonneg hW hwk₀
      have hw0 : 0 ≤ e.weight := edge_weight_fact hW he
      have hlt0 : st'.dists.getD s ⊤ < ((0 : Int) : DistVal) := lt_of_lt_of_le h4 hO.sle
      rw [h3, ← hdcv] at hlt0
      have hlt1 : ((dc + e.weight : Int) : DistVal) < ((0 : Int) : DistVal) := by
        push_cast
        exact hlt0
      have hlt2 : dc + e.weight < 0 := by exact_mod_cast hlt1
      omega
  · intro hall
    exact absurd (hall c hclen) (by rw [hseenc']; simp)
  · intro _
    by_cases hany : ∃ v, v < g.length ∧ st.seen.getD v false = true
    · have hss := hO.seenS hany
      rw [hseen']
      exact seen_set_mono hss
    · push_neg at hany
      have hall : ∀ v, v < g.length → st.seen.getD v false = false := by
        intro v hv
        cases hsv : st.seen.getD v false with
        | false => rfl
        | true => exact absurd hsv (hany v hv)
      have hcs := hcs_of_none hall
      rw [← hcs]
      exact hseenc'

/-! General inversion facts for the Python list primitives, and the
finalized-distance stability of the loop: they hold for arbitrary edge
weights and arbitrary (even out-of-range) edge targets, requiring only that
`seen` and `dists` have the same length as they do throughout a query. -/

theorem pyIdx_lt {len : Nat} {i : Int} {j : Nat} (h : pyIdx len i = some j) : j < len := by
  unfold pyIdx at h
  by_cases h0 : 0 ≤ i
  · rw [if_pos h0] at h
    by_cases h1 : i < (len : Int)
    · rw [if_pos h1] at h
      cases h
      omega
    · rw [if_neg h1] at h
      cases h
  · rw [if_neg h0] at h
    by_cases h1 : -(len : Int) ≤ i
    · rw [if_pos h1] at h
      cases h
      omega
    · rw [if_neg h1] at h
      cases h

theorem pySet_ok_inv {α : Type} {l : List α} {i : Int} {a : α} {l' : List α}
    (h : pySet l i a = .ok l') :
    ∃ j, pyIdx l.length i = some j ∧ j < l.length ∧ l' = l.set j a := by
  unfold pySet at h
  cases hp : pyIdx l.length i with
  | none => rw [hp] at h; cases h
  | some j =>
    rw [hp] at h
    cases h
    exact ⟨j, rfl, pyIdx_lt hp, rfl⟩

theorem pyGet_ok_inv {α : Type} {l : List α} {i : Int} {x : α} (d : α)
    (h : pyGet l i = .ok x) :
    ∃ j, pyIdx l.length i = some j ∧ j < l.length ∧ x = l.getD j d := by
  unfold pyGet at h
  cases hp : pyIdx l.length i with
  | none => rw [hp] at h; simp at h
  | some j =>
    rw [hp] at h
    simp only [Option.some_bind] at h
    cases hq : l.get? j with
    | none => rw [hq] at h; cases h
    | some a =>
      rw [hq] at h
      cases h
      have hjl : j < l.length := by
        by_contra hge
        rw [List.get?_eq_none.mpr (by omega)] at hq
        cases hq
      refine ⟨j, rfl, hjl, ?_⟩
      rw [List.getD_eq_getD_get?, hq]
      rfl

theorem relaxLoop_stable :
    ∀ (edges : List GraphEdge) (st st' : DijkstraState) (curr : Int),
      st.seen.length = st.dists.length →
      relaxLoop curr edges st = .ok st' →
      st'.seen = st.seen ∧ st'.dists.length = st.dists.length ∧
      (∀ v : Nat, st.seen.getD v false = true → st'.dists.getD v ⊤ = st.dists.getD v ⊤) := by
  intro edges
  induction edges with
  | nil =>
    intro st st' curr _ heq
    cases heq
    exact ⟨rfl, rfl, fun v _ => rfl⟩
  | cons e rest ih =>
    intro st st' curr hlen heq
    rw [relaxLoop] at heq
    cases hg : pyGet st.seen e.toV with
    | error err => rw [hg, error_bind] at heq; cases heq
    | ok sTo =>
      rw [hg, ok_bind] at heq
      cases sTo with
      | true =>
        rw [if_pos rfl] at heq
        exact ih st st' curr hlen heq
      | false =>
        rw [if_neg (by simp)] at heq
        cases hdc : pyGet st.dists curr with
        | error err => rw [hdc, error_bind] at heq; cases heq
        | ok dCurr =>
          rw [hdc, ok_bind] at heq
          cases hdt : pyGet st.dists e.toV with
          | error err => rw [hdt, error_bind] at heq; cases heq
          | ok dTo =>
            rw [hdt, ok_bind] at heq
            by_cases hlt : dCurr + (e.weight : DistVal) < dTo
            · rw [if_pos hlt] at heq
              cases hsd : pySet st.dists e.toV (dCurr + (e.weight : DistVal)) with
              | error err => rw [hsd, error_bind] at heq; cases heq
              | ok dists' =>
                rw [hsd, ok_bind] at heq
                cases hsp : pySet st.prev e.toV curr with
                | error err => rw [hsp, error_bind] at heq; cases heq
                | ok prev' =>
                  rw [hsp, ok_bind] at heq
                  obtain ⟨j, hj1, hj2, hj3⟩ := pySet_ok_inv hsd
                  obtain ⟨j', hj'1, hj'2, hj'3⟩ := pyGet_ok_inv false hg
                  have hjj : j' = j := by
                    rw [hlen] at hj'1
                    rw [hj'1] at hj1
                    exact Option.some.inj hj1
                  subst hjj
                  set st₁ : DijkstraState := { st with dists := dists', prev := prev' }
                  have hlen₁ : st₁.seen.length = st₁.dists.length := by
                    show st.seen.length = dists'.length
                    rw [hj3]
                    simpa using hlen
                  obtain ⟨o1, o2, o3⟩ := ih st₁ st' curr hlen₁ heq
                  refine ⟨o1, by rw [o2]; show dists'.length = _; rw [hj3]; simp, ?_⟩
                  intro v hv
                  have hvj : v ≠ j' := by
                    intro hcon
                    rw [hcon, ← hj'3] at hv
                    cases hv
                  rw [o3 v hv]
                  show dists'.getD v ⊤ = st.dists.getD v ⊤
                  rw [hj3]
                  exact getD_set_ne st.dists _ ⊤ (fun hcon => hvj hcon.symm)
            · rw [if_neg hlt] at heq
              exact ih st st' curr hlen heq

theorem step_stable {g : WeightedAdjacencyList} {st st' : DijkstraState}
    (hlen : st.seen.length = st.dists.length)
    (heq : dijkstraStep g st = .ok st') :
    st'.seen.length = st.seen.length ∧ st'.dists.length = st.dists.length ∧
    (∀ v : Nat, st.seen.getD v false = true →
      st'.seen.getD v false = true ∧ st'.dists.getD v ⊤ = st.dists.getD v ⊤) := by
  rw [dijkstraStep] at heq
  cases hg : get_lowest_unvisited st.seen st.dists with
  | error err => rw [hg, error_bind] at heq; cases heq
  | ok curr =>
    rw [hg, ok_bind] at heq
    cases hsp : pySet st.seen curr true with
    | error err => rw [hsp, error_bind] at heq; cases heq
    | ok seen' =>
      rw [hsp, ok_bind] at heq
      cases hga : pyGet g curr with
      | error err => rw [hga, error_bind] at heq; cases heq
      | ok adjs =>
        rw [hga, ok_bind] at heq
        obtain ⟨j, hj1, hj2, hj3⟩ := pySet_ok_inv hsp
        set stM : DijkstraState := { st with seen := seen' }
        have hlenM : stM.seen.length = stM.dists.length := by
          show seen'.length = st.dists.length
          rw [hj3]
          simpa using hlen
        obtain ⟨o1, o2, o3⟩ := relaxLoop_stable adjs stM st' curr hlenM heq
        have hseen'eq : st'.seen = seen' := o1
        refine ⟨by rw [hseen'eq, hj3]; simp, o2, ?_⟩
        intro v hv
        have hvM : stM.seen.getD v false = true := by
          show seen'.getD v false = true
          rw [hj3]
          exact seen_set_mono hv
        exact ⟨by rw [hseen'eq, hj3]; exact seen_set_mono hv, o3 v hvM⟩

theorem loop_stable {g : WeightedAdjacencyList} :
    ∀ (fuel : Nat) (st st' : DijkstraState),
      st.seen.length = st.dists.length →
      loopGo g fuel st = .ok st' →
      ∀ v : Nat, st.seen.getD v false = true →
        st'.seen.getD v false = true ∧ st'.dists.getD v ⊤ = st.dists.getD v ⊤ := by
  intro fuel
  induction fuel with
  | zero =>
    intro st st' _ heq v hv
    rw [loopGo] at heq
    cases hb : has_unvisited st.seen st.dists with
    | error err => rw [hb, error_bind] at heq; cases heq
    | ok b =>
      rw [hb, ok_bind] at heq
      cases b with
      | true => rw [if_pos rfl] at heq; cases heq
      | false =>
        rw [if_neg (by simp)] at heq
        cases heq
        exact ⟨hv, rfl⟩
  | succ fuel ih =>
    intro st st' hlen heq v hv
    rw [loopGo] at heq
    cases hb : has_unvisited st.seen st.dists with
    | error err => rw [hb, error_bind] at heq; cases heq
    | ok b =>
      rw [hb, ok_bind] at heq
      cases b with
      | false =>
        rw [if_neg (by simp)] at heq
        cases heq
        exact ⟨hv, rfl⟩
      | true =>
        rw [if_pos rfl] at heq
        cases hstep : dijkstraStep g st with
        | error err => rw [hstep, error_bind] at heq; cases heq
        | ok st₁ =>
          rw [hstep, ok_bind] at heq
          obtain ⟨p1, p2, p3⟩ := step_stable hlen hstep
          obtain ⟨q1, q2⟩ := p3 v hv
          obtain ⟨r1, r2⟩ := ih st₁ st' (by omega) heq v q1
          exact ⟨r1, by rw [r2, q2]⟩

/-! The main loop: with fuel at least the number of unvisited entries it
terminates without error, preserving both invariants, and in the final state
every unseen vertex has infinite distance. -/

theorem loop_spec {g : WeightedAdjacencyList} (s : Nat) (hE : EdgesOk g) :
    ∀ (fuel : Nat) (st : DijkstraState), SInv g st →
      st.seen.count false ≤ fuel →
      ∃ st', loopGo g fuel st = .ok st' ∧ SInv g st' ∧
        (WeightsNonneg g → s < g.length → OInv g s st → OInv g s st') ∧
        (∀ j, j < g.length → st'.seen.getD j false = false →
          ¬ st'.dists.getD j ⊤ < ⊤) := by
  intro fuel
  induction fuel with
  | zero =>
    intro st hS hcount
    have hzero : st.seen.count false = 0 := by omega
    have hnone : ∀ j, j < g.length → st.seen.getD j false ≠ false := by
      intro j hj hcon
      have := count_false_pos (by rw [hS.hseen]; omega) hcon
      omega
    have hHUf : ¬ HasUnvisitedP st.seen st.dists := by
      rintro ⟨j, hj, hsj, _⟩
      exact hnone j (by rw [← hS.hseen]; omega) hsj
    refine ⟨st, ?_, hS, fun _ _ h => h, fun j hj hsj => absurd hsj (hnone j hj)⟩
    rw [loopGo, has_unvisited_eq st.seen st.dists (by rw [hS.hseen, hS.hdist]), ok_bind,
      decide_eq_false hHUf, if_neg (by simp)]
  | succ fuel ih =>
    intro st hS hcount
    rw [loopGo, has_unvisited_eq st.seen st.dists (by rw [hS.hseen, hS.hdist]), ok_bind]
    by_cases hHU : HasUnvisitedP st.seen st.dists
    · rw [decide_eq_true hHU, if_pos rfl]
      obtain ⟨j0, hj0, hsj0, hdj0⟩ := hHU
      obtain ⟨c, st₁, hstep, hclen, hcseen, hcfin, hcmin, hseen', hdc, hle, hstable,
        hchange, hrelq, hS₁⟩ :=
        step_sinv hS hE ⟨j0, by rw [← hS.hseen]; omega, hsj0, hdj0⟩
      have hcount₁ : st₁.seen.count false ≤ fuel := by
        have := @count_false_set_true st.seen c (by rw [hS.hseen]; omega) hcseen
        rw [hseen']
        omega
      obtain ⟨st', hloop, hS', hOimp, hfinal⟩ := ih st₁ hS₁ hcount₁
      refine ⟨st', ?_, hS', ?_, hfinal⟩
      · rw [hstep, ok_bind]
        exact hloop
      · intro hW hs hO
        exact hOimp hW hs (step_oinv hE hW hs hS hO hclen hcseen hcfin hcmin hseen' hdc hle
          hstable hchange hrelq)
    · rw [decide_eq_false hHU, if_neg (by simp)]
      refine ⟨st, rfl, hS, fun _ _ h => h, ?_⟩
      intro j hj hsj hdj
      exact hHU ⟨j, by rw [hS.hseen]; omega, hsj, hdj⟩

/-! Initial state: both invariants hold after the tables are allocated and
`dists[source] = 0` is set. -/

theorem dijkstraLoopResult_eq (g : WeightedAdjacencyList) (s : Nat) (hs : s < g.length) :
    dijkstraLoopResult g (s : Int) = loopGo g g.length
      ⟨List.replicate g.length false, List.replicate g.length (-1),
        (List.replicate g.length (⊤ : DistVal)).set s 0⟩ := by
  rw [dijkstraLoopResult, pySet_coe _ _ (by simp; omega)]
  simp only [ok_bind]

theorem init_sinv (g : WeightedAdjacencyList) (s : Nat) :
    SInv g ⟨List.replicate g.length false, List.replicate g.length (-1),
      (List.replicate g.length (⊤ : DistVal)).set s 0⟩ := by
  constructor
  · simp
  · simp
  · simp
  · intro v hv hsv
    rw [getD_replicate_lt g.length v false false hv] at hsv
    cases hsv
  · intro v hv
    exact Or.inl (getD_replicate_lt g.length v (-1) (-1) hv)
  · refine ⟨[], List.nodup_nil, ?_, ?_⟩
    · intro v
      simp only [List.not_mem_nil, false_iff]
      rintro ⟨hv, hsv⟩
      rw [getD_replicate_lt g.length v false false hv] at hsv
      cases hsv
    · intro v hv u hpu
      rw [getD_replicate_lt g.length v (-1) (-1) hv] at hpu
      omega

theorem init_oinv (g : WeightedAdjacencyList) (s : Nat) (hs : s < g.length) :
    OInv g s ⟨List.replicate g.length false, List.replicate g.length (-1),
      (List.replicate g.length (⊤ : DistVal)).set s 0⟩ := by
  have hds : ((List.replicate g.length (⊤ : DistVal)).set s 0).getD s ⊤ = (0 : DistVal) :=
    getD_set_self _ s 0 ⊤ (by simp; omega)
  have hdne : ∀ v : Nat, v ≠ s →
      ((List.replicate g.length (⊤ : DistVal)).set s 0).getD v ⊤ =
        (List.replicate g.length (⊤ : DistVal)).getD v ⊤ :=
    fun v hv => getD_set_ne _ 0 ⊤ (fun hcon => hv hcon.symm)
  constructor
  · exact le_of_eq hds
  · intro v hv d hd
    by_cases hvs : v = s
    · subst hvs
      rw [hds] at hd
      have hd0 : d = 0 := by exact_mod_cast hd.symm
      exact ⟨[], rfl, by rw [walkWeight_nil, hd0]⟩
    · rw [hdne v hvs, getD_replicate_lt g.length v ⊤ ⊤ hv] at hd
      exact absurd hd.symm (WithTop.coe_ne_top)
  · intro u hu hsu
    rw [getD_replicate_lt g.length u false false hu] at hsu
    cases hsu
  · intro u hu hsu
    rw [getD_replicate_lt g.length u false false hu] at hsu
    cases hsu
  · intro u v hu _ hsu _
    rw [getD_replicate_lt g.length u false false hu] at hsu
    cases hsu
  · intro v hv hvs hfin
    rw [hdne v hvs, getD_replicate_lt g.length v ⊤ ⊤ hv] at hfin
    exact absurd hfin (lt_irrefl _)
  · exact getD_replicate_lt g.length s (-1) (-1) hs
  · intro _
    rfl
  · rintro ⟨v, hv, hsv⟩
    rw [getD_replicate_lt g.length v false false hv] at hsv
    cases hsv

/-- The relaxation loop of `dijkstra` runs to completion without error on an
in-range source and preserves both invariants; in the resulting state every
unseen vertex has infinite distance. -/
theorem loopResult_spec (g : WeightedAdjacencyList) (s : Nat) (hs : s < g.length)
    (hE : EdgesOk g) (hW : WeightsNonneg g) :
    ∃ st, dijkstraLoopResult g (s : Int) = .ok st ∧ SInv g st ∧ OInv g s st ∧
      (∀ j, j < g.length → st.seen.getD j false = false → ¬ st.dists.getD j ⊤ < ⊤) := by
  rw [dijkstraLoopResult_eq g s hs]
  obtain ⟨st, hloop, hS, hOimp, hfinal⟩ :=
    loop_spec s hE g.length
      ⟨List.replicate g.length false, List.replicate g.length (-1),
        (List.replicate g.length (⊤ : DistVal)).set s 0⟩
      (init_sinv g s)
      (le_trans (List.count_le_length _ _) (by simp))
  exact ⟨st, hloop, hS, hOimp hW hs (init_oinv g s hs), hfinal⟩

/-! Facts about the final state of the loop. -/

theorem final_seen_source {g : WeightedAdjacencyList} {s : Nat} {st : DijkstraState}
    (hs : s < g.length) (hO : OInv g s st)
    (hfinal : ∀ j, j < g.length → st.seen.getD j false = false →
      ¬ st.dists.getD j ⊤ < ⊤) :
    st.seen.getD s false = true := by
  have hlt : st.dists.getD s ⊤ < ⊤ :=
    lt_of_le_of_lt hO.sle (by exact_mod_cast WithTop.coe_lt_top (0 : Int))
  cases hss : st.seen.getD s false with
  | true => rfl
  | false => exact absurd hlt (hfinal s hs hss)

theorem final_reachable_seen {g : WeightedAdjacencyList} {s : Nat} {st : DijkstraState}
    (hs : s < g.length) (hE : EdgesOk g) (hW : WeightsNonneg g)
    (hO : OInv g s st)
    (hfinal : ∀ j, j < g.length → st.seen.getD j false = false →
      ¬ st.dists.getD j ⊤ < ⊤) :
    ∀ v, v < g.length → Reachable g s v → st.seen.getD v false = true := by
  intro v hv hreach
  obtain ⟨es, hwalk⟩ := hreach
  cases hsv : st.seen.getD v false with
  | true => rfl
  | false =>
    obtain ⟨y, hy1, hy2, hy3⟩ :=
      walk_to_unseen hE hW hO.rel es s v hwalk hs (final_seen_source hs hO hfinal) hsv
    have hylt : st.dists.getD y ⊤ < ⊤ := by
      have h0 : st.dists.getD s ⊤ + (walkWeight es : DistVal) ≤
          0 + (walkWeight es : DistVal) := add_le_add_right hO.sle _
      have : st.dists.getD y ⊤ ≤ (walkWeight es : DistVal) := by
        calc st.dists.getD y ⊤ ≤ st.dists.getD s ⊤ + (walkWeight es : DistVal) := hy3
          _ ≤ 0 + (walkWeight es : DistVal) := h0
          _ = (walkWeight es : DistVal) := zero_add _
      exact lt_of_le_of_lt this (WithTop.coe_lt_top _)
    exact absurd hylt (hfinal y hy1 hy2)

/-- C1: for every graph whose edge weights are all non-negative and whose
edge targets are in range, and every in-range source, after `dijkstra`'s
relaxation loop finishes, the computed distance of every vertex reachable
from the source equals the minimum over all paths from source to that vertex
of the sum of the edge weights along the path, and is infinite for
unreachable vertices. -/
theorem dijkstra_distances_optimal (g : WeightedAdjacencyList) (source : Int)
    (h0 : 0 ≤ source) (h1 : source < (g.length : Int))
    (hE : EdgesOk g) (hW : WeightsNonneg g) :
    ∃ st, dijkstraLoopResult g source = .ok st ∧
      ∀ v, v < g.length →
        (Reachable g source.toNat v → ∃ es, IsWalk g source.toNat v es ∧
          st.dists.getD v ⊤ = (walkWeight es : DistVal) ∧
          ∀ es', IsWalk g source.toNat v es' → walkWeight es ≤ walkWeight es') ∧
        (¬ Reachable g source.toNat v → st.dists.getD v ⊤ = ⊤) := by
  set s := source.toNat with hsdef
  have hsrc : source = (s : Int) := by omega
  have hs : s < g.length := by omega
  rw [hsrc]
  obtain ⟨st, hres, hS, hO, hfinal⟩ := loopResult_spec g s hs hE hW
  refine ⟨st, hres, ?_⟩
  intro v hv
  constructor
  · intro hreach
    have hseenv := final_reachable_seen hs hE hW hO hfinal v hv hreach
    have hlt : st.dists.getD v ⊤ < ⊤ := hS.seenFin v hv hseenv
    obtain ⟨d, hd⟩ := WithTop.ne_top_iff_exists.mp (ne_of_lt hlt)
    obtain ⟨es, hwk, hwt⟩ := hO.ach v hv d hd.symm
    refine ⟨es, hwk, by rw [← hd, hwt], ?_⟩
    intro es' hwk'
    have hle := hO.opt v hv hseenv es' hwk'
    rw [← hd] at hle
    rw [hwt]
    exact_mod_cast hle
  · intro hunreach
    cases hsv : st.seen.getD v false with
    | true =>
      exfalso
      have hlt : st.dists.getD v ⊤ < ⊤ := hS.seenFin v hv hsv
      obtain ⟨d, hd⟩ := WithTop.ne_top_iff_exists.mp (ne_of_lt hlt)
      obtain ⟨es, hwk, _⟩ := hO.ach v hv d hd.symm
      exact hunreach ⟨es, hwk⟩
    | false =>
      exact top_le_iff.mp (not_lt.mp (hfinal v hv hsv))

/-- Witness for C1 at the reference graph with source `7`: the hypotheses
hold and the conclusion is obtained by applying the theorem. -/
theorem dijkstra_distances_optimal_witness :
    (0 ≤ (7 : Int) ∧ (7 : Int) < (mainGraph.length : Int) ∧
      EdgesOk mainGraph ∧ WeightsNonneg mainGraph) ∧
    (∃ st, dijkstraLoopResult mainGraph 7 = .ok st ∧
      ∀ v, v < mainGraph.length →
        (Reachable mainGraph (7 : Int).toNat v → ∃ es, IsWalk mainGraph (7 : Int).toNat v es ∧
          st.dists.getD v ⊤ = (walkWeight es : DistVal) ∧
          ∀ es', IsWalk mainGraph (7 : Int).toNat v es' → walkWeight es ≤ walkWeight es') ∧
        (¬ Reachable mainGraph (7 : Int).toNat v → st.dists.getD v ⊤ = ⊤)) :=
  ⟨⟨by decide, by decide, by decide, by decide⟩,
    dijkstra_distances_optimal mainGraph 7 (by decide) (by decide) (by decide) (by decide)⟩

/-! The reconstruction walk: following `prev` from any vertex of the
finalization order list `L` terminates (indices in `L` strictly decrease
along `prev`), producing the vertex sequence of an actual walk in the graph
whose weight accounts for the distance difference. -/

theorem walkGo_chain {g : WeightedAdjacencyList} {st : DijkstraState}
    (hS : SInv g st) {L : List Nat}
    (hmem : ∀ v : Nat, v ∈ L ↔ v < g.length ∧ st.seen.getD v false = true)
    (hlink : ∀ v : Nat, v < g.length → ∀ u : Nat, st.prev.getD v (-1) = (u : Int) →
      u ∈ L ∧ (v ∈ L → L.indexOf u < L.indexOf v)) :
    ∀ (fuel : Nat) (u : Nat), u ∈ L → L.indexOf u < fuel →
      ∀ acc : List Int, ∃ (tail : List Int) (r : Nat) (es : List GraphEdge),
        walkGo st.prev fuel (u : Int) acc = .ok (acc ++ tail) ∧
        r ∈ L ∧ st.prev.getD r (-1) = -1 ∧ IsWalk g r u es ∧
        (tail ++ [(r : Int)]).reverse = (walkVerts r es).map Int.ofNat ∧
        st.dists.getD u ⊤ = st.dists.getD r ⊤ + (walkWeight es : DistVal) ∧
        ((tail = [] ∧ r = u) ∨ tail.head? = some (u : Int)) := by
  intro fuel
  induction fuel with
  | zero => intro u _ hidx; omega
  | succ fuel ih =>
    intro u huL hidx acc
    have hun : u < g.length := ((hmem u).mp huL).1
    rw [walkGo, pyGet_coe st.prev (-1) (by rw [hS.hprev]; omega), ok_bind]
    by_cases hneg : st.prev.getD u (-1) = -1
    · rw [if_neg (by simpa using hneg)]
      refine ⟨[], u, [], by rw [List.append_nil], huL, hneg, rfl, by simp [walkVerts], ?_,
        Or.inl ⟨rfl, rfl⟩⟩
      rw [walkWeight_nil]
      rw [show ((0 : Int) : DistVal) = 0 from rfl, add_zero]
    · rw [if_pos (by simpa using hneg)]
      rcases hS.prevLink u hun with h | ⟨w, hw1, hw2, hw3, e, he, he2, he3⟩
      · exact absurd h hneg
      · have hwL : w ∈ L := (hmem w).mpr ⟨hw1, hw3⟩
        have hidxw : L.indexOf w < fuel := by
          have := (hlink u hun w hw2).2 huL
          omega
        obtain ⟨tail', r, es', heq', hr1, hr2, hwk', hshape', htel', hhd'⟩ :=
          ih w hwL hidxw (acc ++ [(u : Int)])
        have htonat : e.toV.toNat = u := by rw [he2]; simp
        refine ⟨(u : Int) :: tail', r, es' ++ [e], ?_, hr1, hr2, ?_, ?_, ?_, Or.inr rfl⟩
        · rw [hw2, heq']
          simp
        · have := IsWalk.append_edge hwk' he
          rwa [htonat] at this
        · have hverts : walkVerts r (es' ++ [e]) = walkVerts r es' ++ [u] := by
            simp [walkVerts, htonat]
          rw [hverts, List.map_append]
          rw [show ((u : Int) :: tail') ++ [(r : Int)] = (u : Int) :: (tail' ++ [(r : Int)])
            from rfl]
          rw [List.reverse_cons, hshape']
          simp
        · rw [he3, htel', walkWeight_append_edge]
          push_cast
          rw [add_assoc]

theorem walk_result {g : WeightedAdjacencyList} {st : DijkstraState}
    (hS : SInv g st)
    (hfinal : ∀ j, j < g.length → st.seen.getD j false = false →
      ¬ st.dists.getD j ⊤ < ⊤)
    (k : Nat) (hk : k < g.length) :
    (st.prev.getD k (-1) = -1 ∧ walkGo st.prev (g.length + 1) (k : Int) [] = .ok []) ∨
    (∃ (tail : List Int) (r : Nat) (es : List GraphEdge),
      walkGo st.prev (g.length + 1) (k : Int) [] = .ok tail ∧ tail ≠ [] ∧
      tail.head? = some (k : Int) ∧ r < g.length ∧ st.seen.getD r false = true ∧
      st.prev.getD r (-1) = -1 ∧ IsWalk g r k es ∧
      (tail ++ [(r : Int)]).reverse = (walkVerts r es).map Int.ofNat ∧
      st.dists.getD k ⊤ = st.dists.getD r ⊤ + (walkWeight es : DistVal)) := by
  by_cases hneg : st.prev.getD k (-1) = -1
  · refine Or.inl ⟨hneg, ?_⟩
    rw [walkGo, pyGet_coe st.prev (-1) (by rw [hS.hprev]; omega), ok_bind,
      if_neg (by simpa using hneg)]
  · obtain ⟨L, hnd, hmem, hlink⟩ := hS.ord
    have hkfin : st.dists.getD k ⊤ < ⊤ := by
      rcases hS.prevLink k hk with h | ⟨w, hw1, hw2, hw3, e, he, he2, he3⟩
      · exact absurd h hneg
      · have hwfin := hS.seenFin w hw1 hw3
        obtain ⟨dw, hdw⟩ := WithTop.ne_top_iff_exists.mp (ne_of_lt hwfin)
        rw [he3, ← hdw]
        rw [show ((dw : DistVal) + (e.weight : DistVal)) = ((dw + e.weight : Int) : DistVal)
          from by push_cast; rfl]
        exact WithTop.coe_lt_top _
    have hkseen : st.seen.getD k false = true := by
      cases hsk : st.seen.getD k false with
      | true => rfl
      | false => exact absurd hkfin (hfinal k hk hsk)
    have hkL : k ∈ L := (hmem k).mpr ⟨hk, hkseen⟩
    have hLlen : L.length ≤ g.length := by
      have hsub : L.toFinset ⊆ Finset.range g.length := by
        intro a ha
        rw [List.mem_toFinset] at ha
        rw [Finset.mem_range]
        exact ((hmem a).mp ha).1
      have hcard := Finset.card_le_card hsub
      rwa [List.toFinset_card_of_nodup hnd, Finset.card_range] at hcard
    have hidx : L.indexOf k < g.length + 1 := by
      have := List.indexOf_lt_length.mpr hkL
      omega
    obtain ⟨tail, r, es, heq, hr1, hr2, hwk, hshape, htel, hhd⟩ :=
      walkGo_chain hS hmem hlink (g.length + 1) k hkL hidx []
    rcases hhd with ⟨htl, hrk⟩ | hhd
    · exact absurd (hrk ▸ hr2) hneg
    · refine Or.inr ⟨tail, r, es, by simpa using heq, ?_, hhd, ((hmem r).mp hr1).1,
        ((hmem r).mp hr1).2, hr2, hwk, hshape, htel⟩
      intro hcon
      rw [hcon] at hhd
      cases hhd

/-- The relaxation loop runs to completion for an in-range source with
in-range edge targets and arbitrary weights. -/
theorem loopResult_run (g : WeightedAdjacencyList) (s : Nat) (hs : s < g.length)
    (hE : EdgesOk g) :
    ∃ st, dijkstraLoopResult g (s : Int) = .ok st ∧ SInv g st ∧
      (∀ j, j < g.length → st.seen.getD j false = false → ¬ st.dists.getD j ⊤ < ⊤) := by
  rw [dijkstraLoopResult_eq g s hs]
  obtain ⟨st, hloop, hS, _, hfinal⟩ :=
    loop_spec s hE g.length
      ⟨List.replicate g.length false, List.replicate g.length (-1),
        (List.replicate g.length (⊤ : DistVal)).set s 0⟩
      (init_sinv g s)
      (le_trans (List.count_le_length _ _) (by simp))
  exact ⟨st, hloop, hS, hfinal⟩

/-- C10: for every finite adjacency-list graph whose edge targets are in
range, every in-range source and sink, and arbitrary (even negative) edge
weights, `dijkstra` terminates normally: the main loop marks a new vertex
seen on every iteration, so the supplied fuel is never exhausted, and the
predecessor walk follows a finite acyclic chain. -/
theorem dijkstra_terminates (g : WeightedAdjacencyList) (source sink : Int)
    (hs0 : 0 ≤ source) (hs1 : source < (g.length : Int))
    (hk0 : 0 ≤ sink) (hk1 : sink < (g.length : Int))
    (hE : EdgesOk g) :
    ∃ res, dijkstra g source sink = .ok res := by
  set s := source.toNat with hsdef
  set k := sink.toNat with hkdef
  have hsrc : source = (s : Int) := by omega
  have hsnk : sink = (k : Int) := by omega
  have hs : s < g.length := by omega
  have hk : k < g.length := by omega
  rw [hsrc, hsnk]
  obtain ⟨st, hres, hS, hfinal⟩ := loopResult_run g s hs hE
  rw [dijkstra, hres, ok_bind]
  rcases walk_result hS hfinal k hk with ⟨_, hwalk⟩ | ⟨tail, r, es, hwalk, htl, _⟩
  · rw [hwalk, ok_bind]
    exact ⟨[], by rw [if_neg (by simp)]⟩
  · rw [hwalk, ok_bind]
    refine ⟨(tail ++ [(s : Int)]).reverse, ?_⟩
    rw [if_pos (by simpa [List.length_eq_zero] using htl)]

/-- Witness for C10 at the reference graph with source `7` and sink `0`. -/
theorem dijkstra_terminates_witness :
    (0 ≤ (7 : Int) ∧ (7 : Int) < (mainGraph.length : Int) ∧ 0 ≤ (0 : Int) ∧
      (0 : Int) < (mainGraph.length : Int) ∧ EdgesOk mainGraph) ∧
    ∃ res, dijkstra mainGraph 7 0 = .ok res :=
  ⟨⟨by decide, by decide, by decide, by decide, by decide⟩,
    dijkstra_terminates mainGraph 7 0 (by decide) (by decide) (by decide) (by decide)
      (by decide)⟩

/-- C4: for every graph with non-negative in-range edges and in-range source
and sink, `dijkstra` returns the empty sequence when the sink is unreachable,
and any non-empty returned sequence begins with the source, ends with the
sink, follows actual edges of the graph, and those edge weights sum to the
computed distance of the sink. -/
theorem dijkstra_path_valid (g : WeightedAdjacencyList) (source sink : Int)
    (hs0 : 0 ≤ source) (hs1 : source < (g.length : Int))
    (hk0 : 0 ≤ sink) (hk1 : sink < (g.length : Int))
    (hE : EdgesOk g) (hW : WeightsNonneg g) :
    ∃ res, dijkstra g source sink = .ok res ∧
      (¬ Reachable g source.toNat sink.toNat → res = []) ∧
      (res ≠ [] → res.head? = some source ∧ res.getLast? = some sink ∧
        ∃ st es, dijkstraLoopResult g source = .ok st ∧
          IsWalk g source.toNat sink.toNat es ∧
          res = (walkVerts source.toNat es).map Int.ofNat ∧
          st.dists.getD sink.toNat ⊤ = (walkWeight es : DistVal)) := by
  set s := source.toNat with hsdef
  set k := sink.toNat with hkdef
  have hsrc : source = (s : Int) := by omega
  have hsnk : sink = (k : Int) := by omega
  have hs : s < g.length := by omega
  have hk : k < g.length := by omega
  rw [hsrc, hsnk]
  obtain ⟨st, hres, hS, hO, hfinal⟩ := loopResult_spec g s hs hE hW
  rw [dijkstra, hres, ok_bind]
  rcases walk_result hS hfinal k hk
    with ⟨_, hwalk⟩ | ⟨tail, r, es, hwalk, htl, hhd, hrlt, hrseen, hrprev, hwk, hshape, htel⟩
  · rw [hwalk, ok_bind]
    refine ⟨[], by rw [if_neg (by simp)], fun _ => rfl, fun h => absurd rfl h⟩
  · rw [hwalk, ok_bind]
    have hrs : r = s := by
      by_contra hrs
      exact absurd hrprev (hO.finPrev r hrlt hrs (hS.seenFin r hrlt hrseen))
    subst hrs
    have hds0 : st.dists.getD s ⊤ = (0 : DistVal) := by
      have hdsfin : st.dists.getD s ⊤ < ⊤ :=
        lt_of_le_of_lt hO.sle (by exact_mod_cast WithTop.coe_lt_top (0 : Int))
      obtain ⟨d, hd⟩ := WithTop.ne_top_iff_exists.mp (ne_of_lt hdsfin)
      obtain ⟨es₀, hwk₀, hwt₀⟩ := hO.ach s hs d hd.symm
      have hd0 : d ≤ 0 := by
        have := hO.sle
        rw [← hd] at this
        exact_mod_cast this
      have hd0' : 0 ≤ d := hwt₀ ▸ walkWeight_nonneg hW hwk₀
      have : d = 0 := le_antisymm hd0 hd0'
      rw [← hd, this]
      rfl
    obtain ⟨a, t, rfl⟩ : ∃ a t, tail = a :: t := by
      cases tail with
      | nil => exact absurd rfl htl
      | cons a t => exact ⟨a, t, rfl⟩
    have ha : a = (k : Int) := by simpa using hhd
    subst ha
    refine ⟨(((k : Int) :: t) ++ [(s : Int)]).reverse, by rw [if_pos (by simp)], ?_, ?_⟩
    · intro hun
      exact absurd ⟨es, hwk⟩ hun
    · intro _
      refine ⟨?_, ?_, st, es, rfl, hwk, hshape, by rw [htel, hds0, zero_add]⟩
      · rw [hshape]
        simp [walkVerts]
      · rw [List.getLast?_reverse]
        rfl

/-- Witness for C4 at the reference graph with source `7` and sink `0`. -/
theorem dijkstra_path_valid_witness :
    (0 ≤ (7 : Int) ∧ (7 : Int) < (mainGraph.length : Int) ∧ 0 ≤ (0 : Int) ∧
      (0 : Int) < (mainGraph.length : Int) ∧ EdgesOk mainGraph ∧ WeightsNonneg mainGraph) ∧
    ∃ res, dijkstra mainGraph 7 0 = .ok res ∧
      (¬ Reachable mainGraph (7 : Int).toNat (0 : Int).toNat → res = []) ∧
      (res ≠ [] → res.head? = some 7 ∧ res.getLast? = some 0 ∧
        ∃ st es, dijkstraLoopResult mainGraph 7 = .ok st ∧
          IsWalk mainGraph (7 : Int).toNat (0 : Int).toNat es ∧
          res = (walkVerts (7 : Int).toNat es).map Int.ofNat ∧
          st.dists.getD (0 : Int).toNat ⊤ = (walkWeight es : DistVal)) :=
  ⟨⟨by decide, by decide, by decide, by decide, by decide, by decide⟩,
    dijkstra_path_valid mainGraph 7 0 (by decide) (by decide) (by decide) (by decide)
      (by decide) (by decide)⟩

/-- C3 (actual code behavior, contradicting the spec's trivial-path rule):
for every graph with non-negative in-range edges and every in-range vertex,
`dijkstra g s s` returns the empty sequence, not `[s]`: `prev[source]` is
never set, so the reconstruction loop body never runs and the length-zero
branch returns `[]`. -/
theorem dijkstra_source_eq_sink_empty (g : WeightedAdjacencyList) (source : Int)
    (hs0 : 0 ≤ source) (hs1 : source < (g.length : Int))
    (hE : EdgesOk g) (hW : WeightsNonneg g) :
    dijkstra g source source = .ok [] := by
  set s := source.toNat with hsdef
  have hsrc : source = (s : Int) := by omega
  have hs : s < g.length := by omega
  rw [hsrc]
  obtain ⟨st, hres, hS, hO, hfinal⟩ := loopResult_spec g s hs hE hW
  rw [dijkstra, hres, ok_bind]
  rw [walkGo, pyGet_coe st.prev (-1) (by rw [hS.hprev]; omega), ok_bind,
    if_neg (by simpa using hO.prevS), ok_bind, if_neg (by simp)]

/-- Witness for C3's theorem at the reference graph with vertex `0`. -/
theorem dijkstra_source_eq_sink_empty_witness :
    (0 ≤ (0 : Int) ∧ (0 : Int) < (mainGraph.length : Int) ∧
      EdgesOk mainGraph ∧ WeightsNonneg mainGraph) ∧
    dijkstra mainGraph 0 0 = .ok [] :=
  ⟨⟨by decide, by decide, by decide, by decide⟩,
    dijkstra_source_eq_sink_empty mainGraph 0 (by decide) (by decide) (by decide) (by decide)⟩

/-- C2 counterexample: on the reference 8-vertex graph, `dijkstra(g, 7, 0)`
does not return `[7, 2, 4, 1, 0]` (that sequence is not even a path of the
graph, which has no edge `1 → 0`). -/
theorem main_scenario_not_claimed_path :
    ¬ dijkstra mainGraph 7 0 = .ok [7, 2, 4, 1, 0] := by
  intro h
  have h0 : dijkstra mainGraph 7 0 = .ok [] := rfl
  rw [h0] at h
  exact List.cons_ne_nil 7 [2, 4, 1, 0] (Except.ok.inj h).symm

/-- C2 amended: on the reference 8-vertex graph `dijkstra(g, 7, 0)` returns
the empty sequence — vertex `0` has no incoming edges, so it is unreachable
from `7`. -/
theorem main_scenario_returns_empty : dijkstra mainGraph 7 0 = .ok [] := rfl

/-- C5 (actual code behavior): `dijkstra` performs no weight validation; on
a graph containing an edge of weight `-1` it runs the relaxation loop
normally and returns a path, with no error of any kind. -/
theorem dijkstra_negative_weight_no_error :
    dijkstra [[⟨1, -1⟩], []] 0 1 = .ok [0, 1] := rfl

/-- C6 (actual code behavior): `dijkstra` performs no range validation.
With `source = -1` Python's negative indexing makes `dists[-1] = 0` point at
the last vertex and the query runs silently to completion; with
`sink = vertex_count` the query runs the whole relaxation loop and only then
raises `IndexError` (not a designed `InvalidVertex`) when the reconstruction
reads `prev[sink]`. -/
theorem dijkstra_out_of_range_behavior :
    dijkstra mainGraph (-1) 0 = .ok [] ∧ dijkstra mainGraph 0 8 = .error .indexError :=
  ⟨rfl, rfl⟩

/-- C7: throughout one `dijkstra` query, once a vertex is finalized
(`seen[v]` becomes `True`) its distance entry never changes again: any run
of the main loop, for arbitrary edge weights and arbitrary fuel, keeps `v`
seen and leaves `dists[v]` exactly as it was. -/
theorem finalized_distance_stable (g : WeightedAdjacencyList) (fuel : Nat)
    (st st' : DijkstraState) (v : Nat)
    (hlen : st.seen.length = st.dists.length)
    (hrun : loopGo g fuel st = .ok st')
    (hv : st.seen.getD v false = true) :
    st'.seen.getD v false = true ∧ st'.dists.getD v ⊤ = st.dists.getD v ⊤ :=
  loop_stable fuel st st' hlen hrun v hv

/-- Witness for C7 on a one-vertex state whose vertex is already seen. -/
theorem finalized_distance_stable_witness :
    (([true] : List Bool).length = ([(0 : DistVal)]).length ∧
      loopGo [[]] 1 ⟨[true], [-1], [(0 : DistVal)]⟩ = .ok ⟨[true], [-1], [(0 : DistVal)]⟩ ∧
      ([true] : List Bool).getD 0 false = true) ∧
    (([true] : List Bool).getD 0 false = true ∧
      ([(0 : DistVal)]).getD 0 ⊤ = ([(0 : DistVal)]).getD 0 ⊤) :=
  ⟨⟨rfl, rfl, rfl⟩,
    finalized_distance_stable [[]] 1 ⟨[true], [-1], [(0 : DistVal)]⟩
      ⟨[true], [-1], [(0 : DistVal)]⟩ 0 rfl rfl rfl⟩

/-- C8: whenever some unvisited vertex has finite distance,
`get_lowest_unvisited` returns the smallest index among the unvisited
vertices achieving the minimum distance: the result is unvisited with finite
distance, no unvisited vertex has a smaller distance, and every unvisited
vertex with a strictly smaller index has a strictly larger distance. -/
theorem get_lowest_unvisited_spec (seen : List Bool) (dists : List DistVal)
    (hlen : seen.length = dists.length)
    (hex : ∃ j, j < dists.length ∧ seen.getD j false = false ∧ dists.getD j ⊤ < ⊤) :
    ∃ i0 : Nat, get_lowest_unvisited seen dists = .ok (i0 : Int) ∧ i0 < dists.length ∧
      seen.getD i0 false = false ∧ dists.getD i0 ⊤ < ⊤ ∧
      (∀ j, j < dists.length → seen.getD j false = false →
        dists.getD i0 ⊤ ≤ dists.getD j ⊤) ∧
      (∀ j, j < i0 → seen.getD j false = false → dists.getD i0 ⊤ < dists.getD j ⊤) :=
  get_lowest_pos seen dists (by omega) hex

/-- Witness for C8: a three-entry state with a tie between the unvisited
indices 1 and 2 selects index 1. -/
theorem get_lowest_unvisited_spec_witness :
    (([false, false, false] : List Bool).length =
        ([⊤, (4 : Int), (4 : Int)] : List DistVal).length ∧
      ∃ j, j < ([⊤, (4 : Int), (4 : Int)] : List DistVal).length ∧
        ([false, false, false] : List Bool).getD j false = false ∧
        ([⊤, (4 : Int), (4 : Int)] : List DistVal).getD j ⊤ < ⊤) ∧
    ∃ i0 : Nat, get_lowest_unvisited [false, false, false] [⊤, (4 : Int), (4 : Int)] =
        .ok (i0 : Int) ∧
      i0 < ([⊤, (4 : Int), (4 : Int)] : List DistVal).length ∧
      ([false, false, false] : List Bool).getD i0 false = false ∧
      ([⊤, (4 : Int), (4 : Int)] : List DistVal).getD i0 ⊤ < ⊤ ∧
      (∀ j, j < ([⊤, (4 : Int), (4 : Int)] : List DistVal).length →
        ([false, false, false] : List Bool).getD j false = false →
        ([⊤, (4 : Int), (4 : Int)] : List DistVal).getD i0 ⊤ ≤
          ([⊤, (4 : Int), (4 : Int)] : List DistVal).getD j ⊤) ∧
      (∀ j, j < i0 → ([false, false, false] : List Bool).getD j false = false →
        ([⊤, (4 : Int), (4 : Int)] : List DistVal).getD i0 ⊤ <
          ([⊤, (4 : Int), (4 : Int)] : List DistVal).getD j ⊤) :=
  ⟨⟨rfl, ⟨1, by decide, rfl, by decide⟩⟩,
    get_lowest_unvisited_spec [false, false, false] [⊤, (4 : Int), (4 : Int)] rfl
      ⟨1, by decide, rfl, by decide⟩⟩

/-! Embedding of the reference binary heap of `heap.py`.  Elements are
modelled as `Nat` (the source annotates them as Python `int`; `main()` only
ever inserts non-negative ones, and the XOR-swap of `_heapify_up` is then
exactly `Nat.xor`). -/

/-- Embeds the `MinHeap` class state: the backing Python list. -/
structure MinHeap where
  heap : List Nat
deriving DecidableEq

/-- Embeds `_get_child`: `2 * node + 1` for the first child, `2 * node + 2`
for the second. -/
def MinHeap.getChild (node : Nat) (first : Bool) : Nat :=
  if first then 2 * node + 1 else 2 * node + 2

/-- Embeds `_get_parent`: `(node - 1) // 2`; only ever called with
`node > 0`, where Python's floor division agrees with `Nat` division. -/
def MinHeap.getParent (node : Nat) : Nat := (node - 1) / 2

/-- Embeds the `while current > 0` loop of `_heapify_up`.  The first `Nat`
argument is explicit fuel: `heapify_up` passes the starting index, which
suffices because `current` strictly decreases to its parent on every
iteration, and when the fuel reaches `0` so has `current`, which is exactly
the loop's exit condition.  The three XOR assignments (reading the list
again after each write, as Python does) swap `heap[current]` and
`heap[parent]`.  All indices are in range, so reads are plain `getD`. -/
def MinHeap.heapifyUpGo : Nat → List Nat → Nat → List Nat
  | 0, heap, _ => heap
  | fuel + 1, heap, current =>
    if current > 0 then
      if heap.getD current 0 ≥ heap.getD (MinHeap.getParent current) 0 then heap
      else
        let parent := MinHeap.getParent current
        let h₁ := heap.set current (Nat.xor (heap.getD current 0) (heap.getD parent 0))
        let h₂ := h₁.set parent (Nat.xor (h₁.getD current 0) (h₁.getD parent 0))
        let h₃ := h₂.set current (Nat.xor (h₂.getD current 0) (h₂.getD parent 0))
        MinHeap.heapifyUpGo fuel h₃ parent
    else heap

/-- Embeds `_heapify_up`: start from `current = len(self.heap) - 1`. -/
def MinHeap.heapify_up (h : MinHeap) : MinHeap :=
  ⟨MinHeap.heapifyUpGo (h.heap.length - 1) h.heap (h.heap.length - 1)⟩

/-- Embeds `insert`: append the element, then sift it up. -/
def MinHeap.insert (h : MinHeap) (element : Nat) : MinHeap :=
  MinHeap.heapify_up ⟨h.heap ++ [element]⟩

/-- Embeds `_heapify_down`.  Its `while current < len(self.heap) - 1` loop
body can never complete: it evaluates `[self.heap[1], self.heap[2]]`
(raising `IndexError` when index `2` is out of range), then calls `.sort()`
on that temporary list — which sorts in place and returns `None` — and
immediately subscripts the `None` as `children[0]`, raising `TypeError`.
So the method returns the list unchanged when the loop is never entered and
otherwise raises on the first iteration. -/
def MinHeap.heapify_down (heap : List Nat) : Except PyErr (List Nat) :=
  if 0 < heap.length - 1 then do
    let _c1 ← pyGet heap ((MinHeap.getChild 0 true : Nat) : Int)
    let _c2 ← pyGet heap ((MinHeap.getChild 0 false : Nat) : Int)
    .error .typeError
  else .ok heap

/-- Embeds Python's `list.pop(0)`: `IndexError` on an empty list, otherwise
remove the first element. -/
def pyPop0 {α : Type} (l : List α) : Except PyErr (List α) :=
  match l with
  | [] => .error .indexError
  | _ :: rest => .ok rest

/-- Embeds `extract_min`: `self.heap.pop(0)` removes from the array start,
`_heapify_down()` is called, and the method body ends without a `return`
statement, so Python yields `None` — the `Option Nat` component of the
result, always `none`. -/
def MinHeap.extract_min (h : MinHeap) : Except PyErr (MinHeap × Option Nat) := do
  let rest ← pyPop0 h.heap
  let rest' ← MinHeap.heapify_down rest
  pure (⟨rest'⟩, none)

/-- A heap built by `insert`-ing the given elements into an empty heap, as
`main()` of `heap.py` does. -/
def MinHeap.fromElems (elems : List Nat) : MinHeap :=
  elems.foldl MinHeap.insert ⟨[]⟩

example : (MinHeap.fromElems [3, 4, 5, 9, 10]).heap = [3, 4, 5, 9, 10] := by decide

example : MinHeap.extract_min (MinHeap.fromElems [3, 4, 5]) = .error .indexError := by rfl

example : MinHeap.extract_min (MinHeap.fromElems [3, 4, 5, 9]) = .error .typeError := by rfl

/-- C9: `extract_min` never behaves as a correct min-heap extraction: any
call that returns at all returns `None` instead of the removed minimum, and
on every heap of three or more elements (in particular any such heap built
by `insert`) the sift-down step raises instead of restoring heap order
(`IndexError` for exactly three elements, `TypeError` — from subscripting
the `None` returned by `list.sort()` — for four or more). -/
theorem extract_min_defective :
    (∀ (h : MinHeap) (res : MinHeap × Option Nat),
      MinHeap.extract_min h = .ok res → res.2 = none) ∧
    (∀ h : MinHeap, 3 ≤ h.heap.length → ∃ err, MinHeap.extract_min h = .error err) := by
  constructor
  · intro h res heq
    rw [MinHeap.extract_min] at heq
    cases hl : h.heap with
    | nil => rw [hl] at heq; rw [show pyPop0 ([] : List Nat) = .error .indexError from rfl,
        error_bind] at heq; cases heq
    | cons a rest =>
      rw [hl] at heq
      rw [show pyPop0 (a :: rest) = .ok rest from rfl, ok_bind] at heq
      cases hd : MinHeap.heapify_down rest with
      | error err => rw [hd, error_bind] at heq; cases heq
      | ok rest' =>
        rw [hd, ok_bind] at heq
        cases heq
        rfl
  · intro h hlen
    obtain ⟨a, t1, ht1⟩ : ∃ a t, h.heap = a :: t := by
      cases hl : h.heap with
      | nil => rw [hl] at hlen; simp at hlen
      | cons a t => exact ⟨a, t, rfl⟩
    obtain ⟨b, t2, ht2⟩ : ∃ b t, t1 = b :: t := by
      cases hl : t1 with
      | nil => rw [ht1, hl] at hlen; simp at hlen
      | cons b t => exact ⟨b, t, rfl⟩
    obtain ⟨c, t3, ht3⟩ : ∃ c t, t2 = c :: t := by
      cases hl : t2 with
      | nil => rw [ht1, ht2, hl] at hlen; simp at hlen
      | cons c t => exact ⟨c, t, rfl⟩
    rw [MinHeap.extract_min, ht1, ht2, ht3]
    rw [show pyPop0 (a :: b :: c :: t3) = .ok (b :: c :: t3) from rfl, ok_bind]
    rw [MinHeap.heapify_down, if_pos (by simp)]
    rw [show ((MinHeap.getChild 0 true : Nat) : Int) = ((1 : Nat) : Int) from rfl]
    rw [pyGet_coe (b :: c :: t3) 0 (by simp), ok_bind]
    cases t3 with
    | nil =>
      refine ⟨.indexError, ?_⟩
      rw [show (pyGet [b, c] ((MinHeap.getChild 0 false : Nat) : Int) : Except PyErr Nat) =
        .error .indexError from rfl, error_bind, error_bind]
    | cons d t4 =>
      refine ⟨.typeError, ?_⟩
      rw [show ((MinHeap.getChild 0 false : Nat) : Int) = ((2 : Nat) : Int) from rfl]
      rw [pyGet_coe (b :: c :: d :: t4) 0 (by simp), ok_bind, error_bind]

/-- Witness for C9: the size-1 insert-built heap `[3]` returns `None`
(`extract_min` yields no value), and the size-3 insert-built heap
`[3, 4, 5]` makes `extract_min` raise. -/
theorem extract_min_defective_witness :
    ((MinHeap.mk [], (none : Option Nat)).2 = none) ∧
    (3 ≤ (MinHeap.fromElems [3, 4, 5]).heap.length ∧
      ∃ err, MinHeap.extract_min (MinHeap.fromElems [3, 4, 5]) = .error err) :=
  ⟨extract_min_defective.1 (MinHeap.fromElems [3]) (MinHeap.mk [], none) (by rfl),
    ⟨by decide, extract_min_defective.2 (MinHeap.fromElems [3, 4, 5]) (by decide)⟩⟩
